import Mathlib

/-!
# Verification of `Gudhi::witness_complex::Witness_complex`

Shallow embedding of `src/Witness_complex/include/gudhi/Witness_complex.h`
(class `Witness_complex`, methods `create_complex`,
`add_all_faces_of_dimension`, `all_faces_in`).

Modelling choices, in correspondence with the source:

* Distances and filtration values (`FT`, `double`) range over an
  arbitrary linearly ordered additive commutative group `F`: the
  algorithm only subtracts and compares them and uses the constant
  `0`.  The `double` value `norelax_dist2` can additionally be
  `+infinity` (`std::numeric_limits<double>::infinity()`), so the
  threshold is modelled as `Option F`, with `none` standing for
  `+infinity`.

* A witness's incremental nearest-landmark range
  (`Active_witness`, produced by
  `landmark_tree_.query_incremental_nearest_neighbors`) is external to
  the translated sources.  Modelled from the spec: the oracle yields a
  finite sequence of `(landmark id, squared distance)` pairs in
  ascending distance order, exhaustion being a legitimate end of data.
  A witness is therefore represented by the full finite list of pairs
  the oracle would produce, and the iterator pair `(curr_l, end)`
  becomes the remaining suffix of that list.  Dereferencing the end
  iterator yields an infinite distance, so the combined loop guard
  `l_it->second - alpha2 <= norelax_dist2 && l_it != end` stops at the
  end of the list.

* The target simplicial complex (`SimplicialComplexForWitness`, in the
  library `Simplex_tree`) is external to the translated sources.
  Modelled from the spec: it stores simplices with filtration values,
  treats a vertex list as a set (canonical, sorted identity) in
  `find`/`insert_simplex`, `insert_simplex` is a no-op on an already
  present simplex, and it supports `num_vertices` and `set_dimension`.
  The model is an association list keyed by the sorted vertex list.
  To be able to state claims about the calls the builder makes, the
  model additionally records the raw (uncanonicalized) vertex lists
  passed to `find` and `insert_simplex` in two call logs; the logs
  have no influence on any lookup or insertion.

* `Landmark_id` comes from the external spatial-search header; the
  source compares `limit_dimension < 0` and the spec demands
  `max_dimension >= 0` with failure below zero, so `limit_dimension`
  and the dimension counter `k` are modelled as `Int`.

* The dimension loop `while (!active_witnesses.empty() && k <= limit_dimension)`
  is given the fuel `limit_dimension.toNat + 1`: the loop body runs
  only for `k ≤ limit_dimension` starting at `k = 1`, so the fuel is
  never exhausted before the guard fails, and the fuel-exhaustion
  branch returns exactly what the failed guard would return.

* `ActiveWitness aw_copy(active_witnesses.front());` dereferences the
  front of the freshly built witness list before the main loop; on an
  empty witness range this has no defined result, so `create_complex`
  returns `none` (and otherwise `some` of the C++ return value and
  final complex).
-/

set_option linter.unusedSectionVars false

namespace WitnessComplex

/-- Canonical (ascending) form of a vertex list.  Modelled from the
spec: the target simplicial complex treats the vertex list as a set,
i.e. the complex (not the builder) canonicalizes it on `find` and
`insert_simplex`. -/
def canon (s : List Nat) : List Nat := s.insertionSort (· ≤ ·)

/-- The target simplicial complex: association list from canonical
vertex lists to filtration values, the declared dimension, and the two
call logs (raw vertex lists passed to `find`, and raw vertex list plus
filtration value passed to `insert_simplex`). -/
structure SComplex (F : Type) where
  simplices : List (List Nat × F)
  dim : Int
  findLog : List (List Nat)
  insLog : List (List Nat × F)
deriving DecidableEq

variable {F : Type} [LinearOrderedAddCommGroup F]

/-- Association-list lookup used by the complex model. -/
def assocLookup (L : List (List Nat × F)) (K : List Nat) : Option F :=
  (L.find? (fun p => p.1 == K)).map Prod.snd

/-- Pure lookup of a canonical key. -/
def SComplex.lookup (sc : SComplex F) (K : List Nat) : Option F :=
  assocLookup sc.simplices K

/-- The canonical vertex lists present in the complex. -/
def SComplex.keys (sc : SComplex F) : List (List Nat) := sc.simplices.map Prod.fst

/-- `sc.find(vertex_list)`: logs the raw query and looks up its
canonical form; `none` plays the role of `null_simplex()`. -/
def SComplex.find (sc : SComplex F) (s : List Nat) : Option F × SComplex F :=
  (sc.lookup (canon s), { sc with findLog := s :: sc.findLog })

/-- `sc.insert_simplex(vertex_list, fv)`: logs the call; a no-op on an
already present simplex, otherwise stores the canonical key. -/
def SComplex.insert_simplex (sc : SComplex F) (s : List Nat) (fv : F) : SComplex F :=
  match sc.lookup (canon s) with
  | some _ => { sc with insLog := (s, fv) :: sc.insLog }
  | none => { sc with insLog := (s, fv) :: sc.insLog,
                      simplices := (canon s, fv) :: sc.simplices }

/-- `sc.set_dimension(d)`. -/
def SComplex.set_dimension (sc : SComplex F) (d : Int) : SComplex F := { sc with dim := d }

/-- `sc.num_vertices()`: the number of distinct vertices occurring in
stored simplices. -/
def SComplex.numVertices (sc : SComplex F) : Nat :=
  ((sc.simplices.map Prod.fst).flatten.dedup).length

/-- The empty target complex. -/
def emptySC : SComplex F := ⟨[], 0, [], []⟩

/-- `x ≤ nr` for the possibly-infinite threshold `nr`. -/
def distLe (x : F) (nr : Option F) : Bool :=
  match nr with
  | none => true
  | some r => decide (x ≤ r)

/-- The leaf filtration seed: `0`, or `d - norelax_dist2` when
`d > norelax_dist2` (lines 223-226 of the source). -/
def excessFv (d : F) (nr : Option F) : F :=
  match nr with
  | none => 0
  | some r => if r < d then d - r else 0

/-- `if (l_it->second <= norelax_dist2) norelax_dist2 = l_it->second`
(the `dim > 0` loop, lines 209-210). -/
def tightenLe (nr : Option F) (d : F) : Option F :=
  match nr with
  | none => some d
  | some r => if d ≤ r then some d else some r

/-- `if (l_it->second < norelax_dist2) norelax_dist2 = l_it->second`
(the `dim == 0` loop, lines 234-235). -/
def tightenLt (nr : Option F) (d : F) : Option F :=
  match nr with
  | none => some d
  | some r => if d < r then some d else some r

/-- The facets enumerated by `all_faces_in`: for each position, the
vertex list with that position removed, in the order the double
iterator loop produces them. -/
def facetsOf (s : List Nat) : List (List Nat) :=
  (List.range s.length).map (fun i => s.eraseIdx i)

/-- The facet loop of `all_faces_in`: look up each facet, fail on the
first absent one, otherwise raise the filtration value to each found
facet's filtration value. -/
def allFacesInAux : List (List Nat) → F → SComplex F → Option F × SComplex F
  | [], fv, sc => (some fv, sc)
  | f :: rest, fv, sc =>
    let q := sc.find f
    match q.1 with
    | none => (none, q.2)
    | some g => allFacesInAux rest (if fv < g then g else fv) q.2

/-- `all_faces_in(simplex, &filtration_value, sc)` (lines 244-265):
`some fv` with the raised filtration value when every facet is present,
`none` otherwise. -/
def all_faces_in (s : List Nat) (fv : F) (sc : SComplex F) : Option F × SComplex F :=
  allFacesInAux (facetsOf s) fv sc

/-- The `dim == 0` loop of `add_all_faces_of_dimension`
(lines 220-236): scan candidates while
`l_it->second - alpha2 <= norelax_dist2`, push each candidate, insert
the extended simplex when all its facets are present, tighten the
threshold, and continue; `acc` is `will_be_active`. -/
def dimZeroLoop (alpha2 : F) : Option F → List (Nat × F) → List Nat → SComplex F → Bool →
    Bool × SComplex F
  | _, [], _, sc, acc => (acc, sc)
  | nr, (i, d) :: rest, simplex, sc, acc =>
    if distLe (d - alpha2) nr then
      let s' := simplex ++ [i]
      let q := all_faces_in s' (excessFv d nr) sc
      match q.1 with
      | some fv => dimZeroLoop alpha2 (tightenLt nr d) rest simplex
          (q.2.insert_simplex s' fv) true
      | none => dimZeroLoop alpha2 (tightenLt nr d) rest simplex q.2 acc
    else (acc, sc)

/-- The `dim > 0` loop of `add_all_faces_of_dimension`
(lines 193-219): scan candidates while
`l_it->second - alpha2 <= norelax_dist2`; push each candidate, recurse
one dimension lower past it when the extended simplex is already
present, tighten the threshold, recurse at the same dimension past it,
and continue the scan.  The recursive `add_all_faces_of_dimension`
calls are inlined (empty-cursor test, then dispatch on the dimension)
so that each recursive call consumes the cursor suffix. -/
def dimPosLoop (alpha2 : F) : Int → Option F → List (Nat × F) → List Nat → SComplex F → Bool →
    Bool × SComplex F
  | _, _, [], _, sc, acc => (acc, sc)
  | dim, nr, (i, d) :: rest, simplex, sc, acc =>
    if distLe (d - alpha2) nr then
      let s' := simplex ++ [i]
      let q := sc.find s'
      let r1 : Bool × SComplex F :=
        if q.1.isSome then
          match rest with
          | [] => (false, q.2)
          | _ :: _ =>
            if 0 < dim - 1 then dimPosLoop alpha2 (dim - 1) nr rest s' q.2 false
            else if dim - 1 = 0 then dimZeroLoop alpha2 nr rest s' q.2 false
            else (false, q.2)
        else (false, q.2)
      let nr' := tightenLe nr d
      let r2 : Bool × SComplex F :=
        match rest with
        | [] => (false, r1.2)
        | _ :: _ =>
          if 0 < dim then dimPosLoop alpha2 dim nr' rest simplex r1.2 false
          else if dim = 0 then dimZeroLoop alpha2 nr' rest simplex r1.2 false
          else (false, r1.2)
      dimPosLoop alpha2 dim nr' rest simplex r2.2 (r2.1 || (r1.1 || acc))
    else (acc, sc)

/-- `add_all_faces_of_dimension(dim, alpha2, norelax_dist2, curr_l,
simplex, sc, end)` (lines 181-238): returns `false` at an exhausted
cursor, otherwise runs the loop matching the sign of `dim`; the
returned `Bool` is `will_be_active`. -/
def add_all_faces_of_dimension (dim : Int) (alpha2 : F) (nr : Option F)
    (rem : List (Nat × F)) (simplex : List Nat) (sc : SComplex F) : Bool × SComplex F :=
  match rem with
  | [] => (false, sc)
  | _ :: _ =>
    if 0 < dim then dimPosLoop alpha2 dim nr rem simplex sc false
    else if dim = 0 then dimZeroLoop alpha2 nr rem simplex sc false
    else (false, sc)

/-- One pass of the inner witness loop of `create_complex`
(lines 152-165): run `add_all_faces_of_dimension` for each active
witness in order, threading the complex, and keep exactly the
witnesses whose call returned `true`. -/
def onePass (k : Int) (alpha2 : F) : List (List (Nat × F)) → SComplex F →
    List (List (Nat × F)) × SComplex F
  | [], sc => ([], sc)
  | w :: rest, sc =>
    let r := add_all_faces_of_dimension k alpha2 none w [] sc
    let o := onePass k alpha2 rest r.2
    (if r.1 then w :: o.1 else o.1, o.2)

/-- The dimension loop `while (!active_witnesses.empty() && k <= limit_dimension)`
(lines 148-167), with explicit fuel; returns the final value of `k`
and the complex. -/
def buildLoop (alpha2 : F) (limit : Int) : Nat → Int → List (List (Nat × F)) → SComplex F →
    Int × SComplex F
  | 0, k, _, sc => (k, sc)
  | fuel + 1, k, aws, sc =>
    if aws ≠ [] ∧ k ≤ limit then
      let p := onePass k alpha2 aws sc
      buildLoop alpha2 limit fuel (k + 1) p.1 p.2
    else (k, sc)

/-- The dimension-0 seeding loop (lines 138-143): insert one
0-dimensional simplex per landmark, filtration 0, in landmark order. -/
def seedVertices (nbL : Nat) (sc : SComplex F) : SComplex F :=
  (List.range nbL).foldl (fun s i => s.insert_simplex [i] 0) sc

/-- `create_complex(complex, max_alpha_square, limit_dimension)`
(lines 119-170) for `nbL` landmarks whose witness rankings are
`rankings`: precondition checks, seeding, the copy of the front active
witness (`none` on an empty witness range, where the C++ has no
defined result), the dimension loop, and `set_dimension(k-1)`. -/
def create_complex (nbL : Nat) (rankings : List (List (Nat × F))) (sc : SComplex F)
    (max_alpha_square : F) (limit_dimension : Int) : Option (Bool × SComplex F) :=
  if 0 < sc.numVertices then some (false, sc)
  else if max_alpha_square < 0 then some (false, sc)
  else if limit_dimension < 0 then some (false, sc)
  else
    let sc1 := seedVertices nbL sc
    match rankings with
    | [] => none
    | _ :: _ =>
      let r := buildLoop max_alpha_square limit_dimension
        (limit_dimension.toNat + 1) 1 rankings sc1
      some (true, r.2.set_dimension (r.1 - 1))

/-- Strictly increasing vertex ids, as an executable check. -/
def strictlyIncr : List Nat → Bool
  | [] => true
  | [_] => true
  | a :: b :: t => decide (a < b) && strictlyIncr (b :: t)

/-- Facet-monotonicity invariant of a complex: every stored simplex
with at least two vertices has every one of its one-vertex-removed
facets stored, with a filtration value not above its own. -/
def Mono (sc : SComplex F) : Prop :=
  ∀ K f, (K, f) ∈ sc.simplices → 2 ≤ K.length → ∀ j < K.length,
    ∃ g, sc.lookup (K.eraseIdx j) = some g ∧ g ≤ f

/-- Evolution relation along the construction: lookups are preserved,
the declared dimension is unchanged, and the call logs only grow. -/
def Grows (sc sc' : SComplex F) : Prop :=
  (∀ K v, sc.lookup K = some v → sc'.lookup K = some v) ∧
  sc'.dim = sc.dim ∧
  (∃ p, sc'.findLog = p ++ sc.findLog) ∧
  (∃ p, sc'.insLog = p ++ sc.insLog)

/-! ## Canonicalization lemmas -/

theorem canon_sorted (s : List Nat) : List.Sorted (· ≤ ·) (canon s) :=
  List.sorted_insertionSort _ s

theorem canon_perm (s : List Nat) : List.Perm (canon s) s :=
  List.perm_insertionSort _ s

theorem canon_eq_of_perm {s t : List Nat} (h : List.Perm s t) : canon s = canon t :=
  List.eq_of_perm_of_sorted ((canon_perm s).trans (h.trans (canon_perm t).symm))
    (canon_sorted s) (canon_sorted t)

theorem canon_singleton (i : Nat) : canon [i] = [i] := rfl

/-- Removing position `j` from the canonical form of `s` is the
canonical form of `s` with some position removed. -/
theorem canon_facet (s : List Nat) (j : Nat) (hj : j < (canon s).length) :
    ∃ i, i < s.length ∧ (canon s).eraseIdx j = canon (s.eraseIdx i) := by
  have hmem : (canon s)[j] ∈ s := (canon_perm s).mem_iff.mp (List.getElem_mem hj)
  obtain ⟨i, hi, hsi⟩ := List.mem_iff_getElem.mp hmem
  refine ⟨i, hi, ?_⟩
  have p1 : List.Perm ((canon s).eraseIdx j) ((canon s).erase ((canon s)[j])) :=
    (List.erase_getElem hj).symm
  have p2 : List.Perm ((canon s).erase ((canon s)[j])) (s.erase ((canon s)[j])) :=
    (canon_perm s).erase _
  have p3 : List.Perm (s.erase ((canon s)[j])) (s.eraseIdx i) := by
    rw [← hsi]; exact List.erase_getElem hi
  exact List.eq_of_perm_of_sorted
    ((p1.trans (p2.trans p3)).trans (canon_perm (s.eraseIdx i)).symm)
    ((canon_sorted s).sublist (List.eraseIdx_sublist _ j))
    (canon_sorted (s.eraseIdx i))

/-! ## Basic lemmas about the target complex operations -/

theorem assocLookup_cons (K₀ : List Nat) (v₀ : F) (L : List (List Nat × F)) (K : List Nat) :
    assocLookup ((K₀, v₀) :: L) K = if K₀ = K then some v₀ else assocLookup L K := by
  unfold assocLookup
  by_cases h : K₀ = K
  · rw [List.find?_cons_of_pos _ (by simp [h])]; simp [h]
  · rw [List.find?_cons_of_neg _ (by simp [h])]; simp [h]

theorem assocLookup_mem {L : List (List Nat × F)} {K : List Nat} {v : F}
    (h : assocLookup L K = some v) : (K, v) ∈ L := by
  unfold assocLookup at h
  obtain ⟨p, hfind, hv⟩ := Option.map_eq_some'.mp h
  have h1 : p.1 = K := by simpa using List.find?_some hfind
  have h2 : p = (K, v) := by
    cases p
    simp only at h1 hv
    rw [h1, hv]
  exact h2 ▸ List.mem_of_find?_eq_some hfind

theorem lookup_congr {sc₁ sc₂ : SComplex F} (h : sc₁.simplices = sc₂.simplices)
    (K : List Nat) : sc₁.lookup K = sc₂.lookup K := by
  unfold SComplex.lookup; rw [h]

theorem lookup_mem {sc : SComplex F} {K : List Nat} {v : F}
    (h : sc.lookup K = some v) : (K, v) ∈ sc.simplices :=
  assocLookup_mem h

theorem mem_keys_of_lookup {sc : SComplex F} {K : List Nat} {v : F}
    (h : sc.lookup K = some v) : K ∈ sc.keys := by
  exact List.mem_map.mpr ⟨(K, v), lookup_mem h, rfl⟩

theorem lookup_isSome_of_mem_keys {sc : SComplex F} {K : List Nat}
    (h : K ∈ sc.keys) : (sc.lookup K).isSome := by
  obtain ⟨p, hp, hK⟩ := List.mem_map.mp h
  unfold SComplex.lookup assocLookup
  have hf : (sc.simplices.find? (fun p => p.1 == K)).isSome = true :=
    List.find?_isSome.mpr ⟨p, hp, by simp [hK]⟩
  obtain ⟨x, hx⟩ := Option.isSome_iff_exists.mp hf
  rw [hx]
  rfl

theorem find_fst (sc : SComplex F) (s : List Nat) :
    (sc.find s).1 = sc.lookup (canon s) := rfl

theorem find_snd_simplices (sc : SComplex F) (s : List Nat) :
    (sc.find s).2.simplices = sc.simplices := rfl

theorem find_snd_dim (sc : SComplex F) (s : List Nat) :
    (sc.find s).2.dim = sc.dim := rfl

theorem find_snd_insLog (sc : SComplex F) (s : List Nat) :
    (sc.find s).2.insLog = sc.insLog := rfl

theorem find_snd_findLog (sc : SComplex F) (s : List Nat) :
    (sc.find s).2.findLog = s :: sc.findLog := rfl

theorem find_snd_lookup (sc : SComplex F) (s K : List Nat) :
    (sc.find s).2.lookup K = sc.lookup K := rfl

theorem insert_simplices (sc : SComplex F) (s : List Nat) (fv : F) :
    (sc.insert_simplex s fv).simplices =
      if (sc.lookup (canon s)).isSome then sc.simplices
      else (canon s, fv) :: sc.simplices := by
  unfold SComplex.insert_simplex
  cases h : sc.lookup (canon s) <;> simp [h]

theorem insert_dim (sc : SComplex F) (s : List Nat) (fv : F) :
    (sc.insert_simplex s fv).dim = sc.dim := by
  unfold SComplex.insert_simplex
  cases h : sc.lookup (canon s) <;> rfl

theorem insert_findLog (sc : SComplex F) (s : List Nat) (fv : F) :
    (sc.insert_simplex s fv).findLog = sc.findLog := by
  unfold SComplex.insert_simplex
  cases h : sc.lookup (canon s) <;> rfl

theorem insert_insLog (sc : SComplex F) (s : List Nat) (fv : F) :
    (sc.insert_simplex s fv).insLog = (s, fv) :: sc.insLog := by
  unfold SComplex.insert_simplex
  cases h : sc.lookup (canon s) <;> rfl

theorem insert_lookup (sc : SComplex F) (s : List Nat) (fv : F) (K : List Nat) :
    (sc.insert_simplex s fv).lookup K =
      if sc.lookup (canon s) = none ∧ canon s = K then some fv
      else sc.lookup K := by
  have hs := insert_simplices sc s fv
  show assocLookup (sc.insert_simplex s fv).simplices K = _
  rw [hs]
  cases h : sc.lookup (canon s) with
  | some v => simp [h, SComplex.lookup]
  | none =>
    rw [if_neg (by simp), assocLookup_cons]
    simp only [true_and]
    rfl

/-- Lookups already present survive an insertion unchanged. -/
theorem insert_lookup_pres {sc : SComplex F} {K : List Nat} {v : F}
    (h : sc.lookup K = some v) (s : List Nat) (fv : F) :
    (sc.insert_simplex s fv).lookup K = some v := by
  rw [insert_lookup]
  split
  · rename_i hc
    rw [hc.2] at *
    rw [hc.1] at h; cases h
  · exact h

/-! ## Lemmas about the facet check `all_faces_in` -/

theorem afi_simplices (fl : List (List Nat)) (fv : F) (sc : SComplex F) :
    (allFacesInAux fl fv sc).2.simplices = sc.simplices := by
  induction fl generalizing fv sc with
  | nil => rfl
  | cons f rest ih =>
    cases h : sc.lookup (canon f) with
    | none => simp [allFacesInAux, SComplex.find, h]
    | some g =>
      simp only [allFacesInAux, SComplex.find, h]
      rw [ih]

theorem afi_lookup (fl : List (List Nat)) (fv : F) (sc : SComplex F) (K : List Nat) :
    (allFacesInAux fl fv sc).2.lookup K = sc.lookup K :=
  lookup_congr (afi_simplices fl fv sc) K

theorem afi_dim (fl : List (List Nat)) (fv : F) (sc : SComplex F) :
    (allFacesInAux fl fv sc).2.dim = sc.dim := by
  induction fl generalizing fv sc with
  | nil => rfl
  | cons f rest ih =>
    cases h : sc.lookup (canon f) with
    | none => simp [allFacesInAux, SComplex.find, h]
    | some g =>
      simp only [allFacesInAux, SComplex.find, h]
      rw [ih]

theorem afi_insLog (fl : List (List Nat)) (fv : F) (sc : SComplex F) :
    (allFacesInAux fl fv sc).2.insLog = sc.insLog := by
  induction fl generalizing fv sc with
  | nil => rfl
  | cons f rest ih =>
    cases h : sc.lookup (canon f) with
    | none => simp [allFacesInAux, SComplex.find, h]
    | some g =>
      simp only [allFacesInAux, SComplex.find, h]
      rw [ih]

theorem afi_findLog (fl : List (List Nat)) (fv : F) (sc : SComplex F) :
    ∃ p, (allFacesInAux fl fv sc).2.findLog = p ++ sc.findLog ∧ ∀ l ∈ p, l ∈ fl := by
  induction fl generalizing fv sc with
  | nil => exact ⟨[], rfl, by simp⟩
  | cons f rest ih =>
    cases h : sc.lookup (canon f) with
    | none =>
      refine ⟨[f], ?_, by simp⟩
      simp [allFacesInAux, SComplex.find, h]
    | some g =>
      obtain ⟨p, hp, hmem⟩ := ih (if fv < g then g else fv) (sc.find f).2
      refine ⟨p ++ [f], ?_, ?_⟩
      · simp only [allFacesInAux, find_fst, h]
        rw [hp, find_snd_findLog]
        simp
      · intro l hl
        rcases List.mem_append.mp hl with hl | hl
        · exact List.mem_cons_of_mem _ (hmem l hl)
        · simp only [List.mem_singleton] at hl
          rw [hl]; exact List.mem_cons_self _ _

/-- Successful facet check: the returned filtration value dominates
the seed and every facet's stored value, every facet is present, and
the value is attained (it is the seed or some facet's value). -/
theorem afi_some_spec {fl : List (List Nat)} {fv : F} {sc : SComplex F} {v : F}
    (h : (allFacesInAux fl fv sc).1 = some v) :
    fv ≤ v ∧ (∀ f ∈ fl, ∃ g, sc.lookup (canon f) = some g ∧ g ≤ v) ∧
      (v = fv ∨ ∃ f ∈ fl, sc.lookup (canon f) = some v) := by
  induction fl generalizing fv sc with
  | nil =>
    simp only [allFacesInAux] at h
    cases h
    exact ⟨le_refl _, by simp, Or.inl rfl⟩
  | cons f rest ih =>
    cases hf : sc.lookup (canon f) with
    | none => simp [allFacesInAux, SComplex.find, hf] at h
    | some g =>
      simp only [allFacesInAux, find_fst, hf] at h
      obtain ⟨h1, h2, h3⟩ := ih h
      have hstep : fv ≤ (if fv < g then g else fv) := by
        by_cases hlt : fv < g
        · rw [if_pos hlt]; exact le_of_lt hlt
        · rw [if_neg hlt]
      have hstepg : g ≤ (if fv < g then g else fv) := by
        by_cases hlt : fv < g
        · rw [if_pos hlt]
        · rw [if_neg hlt]; exact le_of_not_lt hlt
      have hfv : fv ≤ v := le_trans hstep h1
      have hg : g ≤ v := le_trans hstepg h1
      refine ⟨hfv, ?_, ?_⟩
      · intro f' hf'
        rcases List.mem_cons.mp hf' with hf' | hf'
        · exact ⟨g, hf' ▸ hf, hg⟩
        · obtain ⟨g', hg', hgle⟩ := h2 f' hf'
          exact ⟨g', hg', hgle⟩
      · rcases h3 with h3 | ⟨f', hf', hl⟩
        · by_cases hlt : fv < g
          · rw [if_pos hlt] at h3
            exact Or.inr ⟨f, List.mem_cons_self _ _, h3 ▸ hf⟩
          · rw [if_neg hlt] at h3
            exact Or.inl h3
        · exact Or.inr ⟨f', List.mem_cons_of_mem _ hf', hl⟩

/-- The facet check succeeds exactly when every facet is present. -/
theorem afi_isSome_iff {fl : List (List Nat)} {fv : F} {sc : SComplex F} :
    ((allFacesInAux fl fv sc).1).isSome ↔ ∀ f ∈ fl, (sc.lookup (canon f)).isSome := by
  induction fl generalizing fv sc with
  | nil => simp [allFacesInAux]
  | cons f rest ih =>
    cases hf : sc.lookup (canon f) with
    | none =>
      simp only [allFacesInAux, find_fst, hf]
      simp [hf]
    | some g =>
      simp only [allFacesInAux, find_fst, hf]
      rw [ih]
      simp only [find_snd_lookup]
      simp [List.forall_mem_cons, hf]

/-! ## The evolution relation -/

theorem grows_refl (sc : SComplex F) : Grows sc sc :=
  ⟨fun _ _ h => h, rfl, ⟨[], rfl⟩, ⟨[], rfl⟩⟩

theorem grows_trans {sc₁ sc₂ sc₃ : SComplex F} (h₁ : Grows sc₁ sc₂) (h₂ : Grows sc₂ sc₃) :
    Grows sc₁ sc₃ := by
  obtain ⟨l₁, d₁, ⟨p₁, hp₁⟩, ⟨q₁, hq₁⟩⟩ := h₁
  obtain ⟨l₂, d₂, ⟨p₂, hp₂⟩, ⟨q₂, hq₂⟩⟩ := h₂
  exact ⟨fun K v h => l₂ K v (l₁ K v h), d₂.trans d₁,
    ⟨p₂ ++ p₁, by rw [hp₂, hp₁, List.append_assoc]⟩,
    ⟨q₂ ++ q₁, by rw [hq₂, hq₁, List.append_assoc]⟩⟩

theorem grows_keys {sc sc' : SComplex F} (h : Grows sc sc') : sc.keys ⊆ sc'.keys := by
  intro K hK
  obtain ⟨x, hx⟩ := Option.isSome_iff_exists.mp (lookup_isSome_of_mem_keys hK)
  exact mem_keys_of_lookup (h.1 K x hx)

theorem grows_find (sc : SComplex F) (s : List Nat) : Grows sc (sc.find s).2 :=
  ⟨fun _ _ h => h, rfl, ⟨[s], rfl⟩, ⟨[], rfl⟩⟩

theorem grows_insert (sc : SComplex F) (s : List Nat) (fv : F) :
    Grows sc (sc.insert_simplex s fv) :=
  ⟨fun _ _ h => insert_lookup_pres h s fv, insert_dim sc s fv,
    ⟨[], (insert_findLog sc s fv).symm ▸ rfl⟩,
    ⟨[(s, fv)], insert_insLog sc s fv⟩⟩

theorem grows_afi (fl : List (List Nat)) (fv : F) (sc : SComplex F) :
    Grows sc (allFacesInAux fl fv sc).2 := by
  obtain ⟨p, hp, _⟩ := afi_findLog fl fv sc
  exact ⟨fun K v h => (afi_lookup fl fv sc K).symm ▸ h, afi_dim fl fv sc,
    ⟨p, hp⟩, ⟨[], (afi_insLog fl fv sc).symm ▸ rfl⟩⟩

theorem grows_dimZeroLoop (alpha2 : F) (nr : Option F) (rem : List (Nat × F))
    (simplex : List Nat) (sc : SComplex F) (acc : Bool) :
    Grows sc (dimZeroLoop alpha2 nr rem simplex sc acc).2 := by
  induction rem generalizing nr sc acc with
  | nil => exact grows_refl sc
  | cons hd rest ih =>
    obtain ⟨i, d⟩ := hd
    simp only [dimZeroLoop]
    by_cases hg : distLe (d - alpha2) nr
    · rw [if_pos hg]
      cases hq : (all_faces_in (simplex ++ [i]) (excessFv d nr) sc).1 with
      | some fv =>
        exact grows_trans (grows_trans (grows_afi _ _ _) (grows_insert _ _ _)) (ih _ _ _)
      | none =>
        exact grows_trans (grows_afi _ _ _) (ih _ _ _)
    · rw [if_neg hg]
      exact grows_refl sc

theorem grows_dimPosLoop (alpha2 : F) (dim : Int) (nr : Option F) (rem : List (Nat × F))
    (simplex : List Nat) (sc : SComplex F) (acc : Bool) :
    Grows sc (dimPosLoop alpha2 dim nr rem simplex sc acc).2 := by
  induction rem generalizing dim nr simplex sc acc with
  | nil => exact grows_refl sc
  | cons hd rest ih =>
    obtain ⟨i, d⟩ := hd
    have hadd : ∀ (dim' : Int) (nr' : Option F) (s'' : List Nat) (sc'' : SComplex F),
        Grows sc'' (add_all_faces_of_dimension dim' alpha2 nr' rest s'' sc'').2 := by
      intro dim' nr' s'' sc''
      cases rest with
      | nil => exact grows_refl _
      | cons a b =>
        simp only [add_all_faces_of_dimension]
        by_cases h1 : 0 < dim'
        · rw [if_pos h1]; exact ih _ _ _ _ _
        · rw [if_neg h1]
          by_cases h2 : dim' = 0
          · rw [if_pos h2]; exact grows_dimZeroLoop _ _ _ _ _ _
          · rw [if_neg h2]; exact grows_refl _
    simp only [dimPosLoop]
    by_cases hg : distLe (d - alpha2) nr
    · rw [if_pos hg]
      by_cases hq : ((sc.find (simplex ++ [i])).1).isSome
      · rw [if_pos hq]
        cases rest with
        | nil =>
          exact grows_trans (grows_find _ _) (ih _ _ _ _ _)
        | cons a b =>
          by_cases h1 : 0 < dim - 1
          · rw [if_pos h1]
            exact grows_trans (grows_trans (grows_trans (grows_find _ _) (ih _ _ _ _ _))
              (hadd _ _ _ _)) (ih _ _ _ _ _)
          · rw [if_neg h1]
            by_cases h2 : dim - 1 = 0
            · rw [if_pos h2]
              exact grows_trans (grows_trans (grows_trans (grows_find _ _)
                (grows_dimZeroLoop _ _ _ _ _ _)) (hadd _ _ _ _)) (ih _ _ _ _ _)
            · rw [if_neg h2]
              exact grows_trans (grows_trans (grows_find _ _) (hadd _ _ _ _)) (ih _ _ _ _ _)
      · rw [if_neg hq]
        exact grows_trans (grows_trans (grows_find _ _) (hadd _ _ _ _)) (ih _ _ _ _ _)
    · rw [if_neg hg]
      exact grows_refl sc

theorem grows_add (dim : Int) (alpha2 : F) (nr : Option F) (rem : List (Nat × F))
    (simplex : List Nat) (sc : SComplex F) :
    Grows sc (add_all_faces_of_dimension dim alpha2 nr rem simplex sc).2 := by
  cases rem with
  | nil => exact grows_refl sc
  | cons a b =>
    simp only [add_all_faces_of_dimension]
    by_cases h1 : 0 < dim
    · rw [if_pos h1]; exact grows_dimPosLoop _ _ _ _ _ _ _
    · rw [if_neg h1]
      by_cases h2 : dim = 0
      · rw [if_pos h2]; exact grows_dimZeroLoop _ _ _ _ _ _
      · rw [if_neg h2]; exact grows_refl sc

theorem grows_onePass (k : Int) (alpha2 : F) (aws : List (List (Nat × F))) (sc : SComplex F) :
    Grows sc (onePass k alpha2 aws sc).2 := by
  induction aws generalizing sc with
  | nil => exact grows_refl sc
  | cons w rest ih =>
    exact grows_trans (grows_add _ _ _ _ _ _) (ih _)

theorem grows_buildLoop (alpha2 : F) (limit : Int) (fuel : Nat) (k : Int)
    (aws : List (List (Nat × F))) (sc : SComplex F) :
    Grows sc (buildLoop alpha2 limit fuel k aws sc).2 := by
  induction fuel generalizing k aws sc with
  | zero => exact grows_refl sc
  | succ n ih =>
    simp only [buildLoop]
    by_cases h : aws ≠ [] ∧ k ≤ limit
    · rw [if_pos h]
      exact grows_trans (grows_onePass _ _ _ _) (ih _ _ _)
    · rw [if_neg h]
      exact grows_refl sc

theorem grows_seedVertices (nbL : Nat) (sc : SComplex F) :
    Grows sc (seedVertices nbL sc) := by
  unfold seedVertices
  induction nbL with
  | zero => exact grows_refl sc
  | succ n ih =>
    rw [List.range_succ, List.foldl_append]
    exact grows_trans ih (grows_insert _ _ _)

/-! ## Preservation of the facet-monotonicity invariant -/

theorem mem_facetsOf {s : List Nat} {i : Nat} (hi : i < s.length) :
    s.eraseIdx i ∈ facetsOf s := by
  unfold facetsOf
  exact List.mem_map.mpr ⟨i, List.mem_range.mpr hi, rfl⟩

theorem mono_congr {sc₁ sc₂ : SComplex F} (h : sc₁.simplices = sc₂.simplices)
    (hm : Mono sc₁) : Mono sc₂ := by
  intro K f hKf hlen j hj
  obtain ⟨g, hg, hgle⟩ := hm K f (h ▸ hKf) hlen j hj
  exact ⟨g, (lookup_congr h _) ▸ hg, hgle⟩

theorem all_faces_in_eq (s : List Nat) (fv : F) (sc : SComplex F) :
    all_faces_in s fv sc = allFacesInAux (facetsOf s) fv sc := rfl

/-- Inserting a simplex whose facet check succeeded preserves the
invariant. -/
theorem mono_insert_guarded {sc : SComplex F} {s' : List Nat} {fv0 v : F}
    (hm : Mono sc) (h : (all_faces_in s' fv0 sc).1 = some v) :
    Mono ((all_faces_in s' fv0 sc).2.insert_simplex s' v) := by
  rw [all_faces_in_eq] at h ⊢
  have hsim : (allFacesInAux (facetsOf s') fv0 sc).2.simplices = sc.simplices :=
    afi_simplices _ _ _
  obtain ⟨-, hfacets, -⟩ := afi_some_spec h
  set sc1 := (allFacesInAux (facetsOf s') fv0 sc).2 with hsc1
  have hlk : ∀ K, sc1.lookup K = sc.lookup K := fun K => lookup_congr hsim K
  intro K f hKf hlen j hj
  rw [insert_simplices] at hKf
  cases hpres : (sc1.lookup (canon s')).isSome with
  | true =>
    rw [hpres, if_pos rfl, hsim] at hKf
    obtain ⟨g, hg, hgle⟩ := hm K f hKf hlen j hj
    exact ⟨g, insert_lookup_pres ((hlk _).symm ▸ hg) s' v, hgle⟩
  | false =>
    rw [hpres] at hKf
    simp only [Bool.false_eq_true, if_false, hsim] at hKf
    rcases List.mem_cons.mp hKf with hKf | hKf
    · -- the newly inserted simplex
      have hK : K = canon s' := congrArg Prod.fst hKf
      have hf : f = v := congrArg Prod.snd hKf
      subst hK hf
      obtain ⟨i, hi, hei⟩ := canon_facet s' j (by exact hj)
      obtain ⟨g, hlook, hgle⟩ := hfacets (s'.eraseIdx i) (mem_facetsOf hi)
      refine ⟨g, ?_, hgle⟩
      rw [hei]
      exact insert_lookup_pres ((hlk _).symm ▸ hlook) s' f
    · obtain ⟨g, hg, hgle⟩ := hm K f hKf hlen j hj
      exact ⟨g, insert_lookup_pres ((hlk _).symm ▸ hg) s' v, hgle⟩

/-- Inserting a vertex (or the empty simplex) preserves the invariant
unconditionally. -/
theorem mono_insert_small {sc : SComplex F} {s : List Nat} {fv : F}
    (hm : Mono sc) (hs : (canon s).length ≤ 1) : Mono (sc.insert_simplex s fv) := by
  intro K f hKf hlen j hj
  rw [insert_simplices] at hKf
  cases hpres : (sc.lookup (canon s)).isSome with
  | true =>
    rw [hpres, if_pos rfl] at hKf
    obtain ⟨g, hg, hgle⟩ := hm K f hKf hlen j hj
    exact ⟨g, insert_lookup_pres hg s fv, hgle⟩
  | false =>
    rw [hpres] at hKf
    simp only [Bool.false_eq_true, if_false] at hKf
    rcases List.mem_cons.mp hKf with hKf | hKf
    · have hK : K = canon s := congrArg Prod.fst hKf
      rw [hK] at hlen
      omega
    · obtain ⟨g, hg, hgle⟩ := hm K f hKf hlen j hj
      exact ⟨g, insert_lookup_pres hg s fv, hgle⟩

theorem mono_dimZeroLoop (alpha2 : F) (nr : Option F) (rem : List (Nat × F))
    (simplex : List Nat) (sc : SComplex F) (acc : Bool) (hm : Mono sc) :
    Mono (dimZeroLoop alpha2 nr rem simplex sc acc).2 := by
  induction rem generalizing nr simplex sc acc with
  | nil => exact hm
  | cons hd rest ih =>
    obtain ⟨i, d⟩ := hd
    simp only [dimZeroLoop]
    by_cases hg : distLe (d - alpha2) nr
    · rw [if_pos hg]
      cases hq : (all_faces_in (simplex ++ [i]) (excessFv d nr) sc).1 with
      | some fv =>
        exact ih _ _ _ _ (mono_insert_guarded hm hq)
      | none =>
        refine ih _ _ _ _ (mono_congr ?_ hm)
        rw [all_faces_in_eq, afi_simplices]
    · rw [if_neg hg]
      exact hm

theorem mono_dimPosLoop (alpha2 : F) (dim : Int) (nr : Option F) (rem : List (Nat × F))
    (simplex : List Nat) (sc : SComplex F) (acc : Bool) (hm : Mono sc) :
    Mono (dimPosLoop alpha2 dim nr rem simplex sc acc).2 := by
  induction rem generalizing dim nr simplex sc acc with
  | nil => exact hm
  | cons hd rest ih =>
    obtain ⟨i, d⟩ := hd
    have hfind : ∀ (s'' : List Nat) (sc'' : SComplex F), Mono sc'' → Mono (sc''.find s'').2 :=
      fun s'' sc'' h => mono_congr (find_snd_simplices sc'' s'').symm h
    have hadd : ∀ (dim' : Int) (nr' : Option F) (s'' : List Nat) (sc'' : SComplex F),
        Mono sc'' → Mono (add_all_faces_of_dimension dim' alpha2 nr' rest s'' sc'').2 := by
      intro dim' nr' s'' sc'' h
      cases rest with
      | nil => exact h
      | cons a b =>
        simp only [add_all_faces_of_dimension]
        by_cases h1 : 0 < dim'
        · rw [if_pos h1]; exact ih _ _ _ _ _ h
        · rw [if_neg h1]
          by_cases h2 : dim' = 0
          · rw [if_pos h2]; exact mono_dimZeroLoop _ _ _ _ _ _ h
          · rw [if_neg h2]; exact h
    simp only [dimPosLoop]
    by_cases hg : distLe (d - alpha2) nr
    · rw [if_pos hg]
      by_cases hq : ((sc.find (simplex ++ [i])).1).isSome
      · rw [if_pos hq]
        cases rest with
        | nil =>
          exact ih _ _ _ _ _ (hfind _ _ hm)
        | cons a b =>
          by_cases h1 : 0 < dim - 1
          · rw [if_pos h1]
            exact ih _ _ _ _ _ ((hadd _ _ _ _) (ih _ _ _ _ _ (hfind _ _ hm)))
          · rw [if_neg h1]
            by_cases h2 : dim - 1 = 0
            · rw [if_pos h2]
              exact ih _ _ _ _ _ ((hadd _ _ _ _)
                (mono_dimZeroLoop _ _ _ _ _ _ (hfind _ _ hm)))
            · rw [if_neg h2]
              exact ih _ _ _ _ _ ((hadd _ _ _ _) (hfind _ _ hm))
      · rw [if_neg hq]
        exact ih _ _ _ _ _ ((hadd _ _ _ _) (hfind _ _ hm))
    · rw [if_neg hg]
      exact hm

theorem mono_add (dim : Int) (alpha2 : F) (nr : Option F) (rem : List (Nat × F))
    (simplex : List Nat) (sc : SComplex F) (hm : Mono sc) :
    Mono (add_all_faces_of_dimension dim alpha2 nr rem simplex sc).2 := by
  cases rem with
  | nil => exact hm
  | cons a b =>
    simp only [add_all_faces_of_dimension]
    by_cases h1 : 0 < dim
    · rw [if_pos h1]; exact mono_dimPosLoop _ _ _ _ _ _ _ hm
    · rw [if_neg h1]
      by_cases h2 : dim = 0
      · rw [if_pos h2]; exact mono_dimZeroLoop _ _ _ _ _ _ hm
      · rw [if_neg h2]; exact hm

theorem mono_onePass (k : Int) (alpha2 : F) (aws : List (List (Nat × F)))
    (sc : SComplex F) (hm : Mono sc) : Mono (onePass k alpha2 aws sc).2 := by
  induction aws generalizing sc with
  | nil => exact hm
  | cons w rest ih =>
    exact ih _ (mono_add _ _ _ _ _ _ hm)

theorem mono_buildLoop (alpha2 : F) (limit : Int) (fuel : Nat) (k : Int)
    (aws : List (List (Nat × F))) (sc : SComplex F) (hm : Mono sc) :
    Mono (buildLoop alpha2 limit fuel k aws sc).2 := by
  induction fuel generalizing k aws sc with
  | zero => exact hm
  | succ n ih =>
    simp only [buildLoop]
    by_cases h : aws ≠ [] ∧ k ≤ limit
    · rw [if_pos h]
      exact ih _ _ _ (mono_onePass _ _ _ _ hm)
    · rw [if_neg h]
      exact hm

theorem mono_seedVertices (nbL : Nat) (sc : SComplex F) (hm : Mono sc) :
    Mono (seedVertices nbL sc) := by
  unfold seedVertices
  induction nbL with
  | zero => exact hm
  | succ n ih =>
    rw [List.range_succ, List.foldl_append]
    exact mono_insert_small ih (by rw [canon_singleton]; exact le_refl 1)

/-! ## From the one-step invariant to all faces -/

theorem sublist_eraseIdx_step {G S : List Nat} (h : G.Sublist S) (hlt : G.length < S.length) :
    ∃ j, j < S.length ∧ G.Sublist (S.eraseIdx j) := by
  induction h with
  | slnil => simp at hlt
  | @cons G l a h ih =>
    rcases Nat.lt_or_ge G.length l.length with hl | hl
    · obtain ⟨j, hj, hs⟩ := ih hl
      refine ⟨j + 1, by simpa using hj, ?_⟩
      rw [List.eraseIdx_cons_succ]
      exact hs.cons a
    · have he : G = l := h.eq_of_length (le_antisymm h.length_le hl)
      exact ⟨0, by simp, by rw [List.eraseIdx_cons_zero, he]⟩
  | @cons₂ G l a h ih =>
    obtain ⟨j, hj, hs⟩ := ih (by simpa using hlt)
    refine ⟨j + 1, by simpa using hj, ?_⟩
    rw [List.eraseIdx_cons_succ]
    exact hs.cons₂ a

/-- In a complex satisfying the invariant, every nonempty proper
sublist of a stored simplex is stored, with a filtration value not
above the simplex's. -/
theorem mono_faces {sc : SComplex F} (hm : Mono sc) (K : List Nat) (f : F)
    (hmem : (K, f) ∈ sc.simplices) (G : List Nat) (hG : G.Sublist K)
    (hne : G ≠ []) (hneK : G ≠ K) : ∃ g, sc.lookup G = some g ∧ g ≤ f := by
  obtain ⟨n, hn⟩ : ∃ n, K.length ≤ n := ⟨K.length, le_refl _⟩
  induction n generalizing K f G with
  | zero =>
    have : K = [] := List.length_eq_zero.mp (Nat.le_zero.mp hn)
    subst this
    have : G = [] := List.sublist_nil.mp hG
    exact absurd this hne
  | succ n ih =>
    have hlt : G.length < K.length :=
      lt_of_le_of_ne hG.length_le (fun he => hneK (hG.eq_of_length he))
    have h2 : 2 ≤ K.length := by
      have : 0 < G.length := List.length_pos.mpr hne
      omega
    obtain ⟨j, hj, hsub⟩ := sublist_eraseIdx_step hG hlt
    obtain ⟨g, hlook, hgle⟩ := hm K f hmem h2 j hj
    by_cases hGK : G = K.eraseIdx j
    · exact ⟨g, hGK ▸ hlook, hgle⟩
    · have hmem' : (K.eraseIdx j, g) ∈ sc.simplices := lookup_mem hlook
      have hlen' : (K.eraseIdx j).length ≤ n := by
        have := List.length_eraseIdx_add_one hj
        omega
      obtain ⟨g', hg', hgle'⟩ := ih (K.eraseIdx j) g hmem' G hsub hne hGK hlen'
      exact ⟨g', hg', le_trans hgle' hgle⟩

/-! ## Initial complexes with no vertices -/

theorem numVertices_zero_keys {sc : SComplex F} (h : sc.numVertices = 0) :
    ∀ K ∈ sc.keys, K = [] := by
  intro K hK
  unfold SComplex.numVertices at h
  have hd : ((sc.simplices.map Prod.fst).flatten.dedup) = [] :=
    List.length_eq_zero.mp h
  have hf : (sc.simplices.map Prod.fst).flatten = [] := (List.dedup_eq_nil _).mp hd
  exact List.flatten_eq_nil_iff.mp hf K hK

theorem mono_of_no_vertices {sc : SComplex F} (h : sc.numVertices = 0) : Mono sc := by
  intro K f hKf hlen j hj
  have : K = [] := numVertices_zero_keys h K (List.mem_map.mpr ⟨(K, f), hKf, rfl⟩)
  rw [this] at hlen
  simp at hlen

theorem set_dimension_simplices (sc : SComplex F) (d : Int) :
    (sc.set_dimension d).simplices = sc.simplices := rfl

/-- The complex produced by any run of `create_complex` from a
vertex-free initial complex satisfies the facet-monotonicity
invariant. -/
theorem mono_create {nbL : Nat} {rankings : List (List (Nat × F))} {sc : SComplex F}
    {alpha2 : F} {limit : Int} {p : Bool × SComplex F}
    (h0 : sc.numVertices = 0)
    (h : create_complex nbL rankings sc alpha2 limit = some p) : Mono p.2 := by
  unfold create_complex at h
  rw [if_neg (by omega)] at h
  by_cases hα : alpha2 < 0
  · rw [if_pos hα] at h
    cases h
    exact mono_of_no_vertices h0
  · rw [if_neg hα] at h
    by_cases hl : limit < 0
    · rw [if_pos hl] at h
      cases h
      exact mono_of_no_vertices h0
    · rw [if_neg hl] at h
      cases rankings with
      | nil => cases h
      | cons w ws =>
        simp only at h
        cases h
        exact mono_congr rfl
          (mono_buildLoop _ _ _ _ _ _ (mono_seedVertices _ _ (mono_of_no_vertices h0)))

/-- Claim C1 (downward closure): the facet check `all_faces_in`
succeeds exactly when every proper facet (one vertex removed) of the
candidate simplex is present in the complex, and — since every
insertion of a simplex of dimension at least 1 is guarded by that
check — in every run of `create_complex` from a complex with no
vertices, every nonempty proper face (sub-vertex-set) of every simplex
of the resulting complex is itself present in the resulting complex. -/
theorem claim_C1_downward_closure :
    (∀ (s : List Nat) (fv : F) (sc : SComplex F),
      ((all_faces_in s fv sc).1).isSome ↔ ∀ f ∈ facetsOf s, (sc.lookup (canon f)).isSome) ∧
    (∀ (nbL : Nat) (rankings : List (List (Nat × F))) (sc : SComplex F)
      (alpha2 : F) (limit : Int), sc.numVertices = 0 →
      ∀ p ∈ create_complex nbL rankings sc alpha2 limit,
        ∀ q ∈ p.2.simplices, ∀ G ∈ q.1.sublists, G ≠ [] → G ≠ q.1 → G ∈ p.2.keys) := by
  constructor
  · intro s fv sc
    rw [all_faces_in_eq]
    exact afi_isSome_iff
  · intro nbL rankings sc alpha2 limit h0 p hp q hq G hG hne hneq
    have hm : Mono p.2 := mono_create h0 hp
    obtain ⟨g, hg, -⟩ := mono_faces hm q.1 q.2 hq G (List.mem_sublists.mp hG) hne hneq
    exact mem_keys_of_lookup hg

/-- Claim C1 witness: a concrete instantiation of both parts. -/
theorem claim_C1_downward_closure_witness :
    (((all_faces_in [0, 1] 0 (seedVertices 2 (emptySC (F := Int)))).1).isSome ↔
      ∀ f ∈ facetsOf [0, 1],
        (((seedVertices 2 (emptySC (F := Int))).lookup (canon f)).isSome)) ∧
    ((emptySC (F := Int)).numVertices = 0 ∧
      ∀ p ∈ create_complex 3 [[(0, 0), (1, 1), (2, 3)], [(0, 0), (2, 1), (1, 3)]]
          (emptySC (F := Int)) 2 3,
        ∀ q ∈ p.2.simplices, ∀ G ∈ q.1.sublists, G ≠ [] → G ≠ q.1 → G ∈ p.2.keys) :=
  ⟨(claim_C1_downward_closure (F := Int)).1 [0, 1] 0 (seedVertices 2 emptySC),
   ⟨by decide,
    (claim_C1_downward_closure (F := Int)).2 3
      [[(0, 0), (1, 1), (2, 3)], [(0, 0), (2, 1), (1, 3)]] emptySC 2 3 (by decide)⟩⟩

/-- Claim C2 (filtration monotonicity): the excess-distance seed is
`max(0, distance - norelax_dist2)`; a successful `all_faces_in` call
returns exactly the maximum of its seed value and the filtration
values of the facets it found (it dominates all of them and is
attained by one of them); and consequently, in every run of
`create_complex` from a complex with no vertices, every nonempty
proper face of a simplex of the resulting complex carries a filtration
value less than or equal to that of the simplex. -/
theorem claim_C2_filtration_monotonicity :
    (∀ d r : F, excessFv d (some r) = max 0 (d - r)) ∧
    (∀ (s : List Nat) (fv : F) (sc : SComplex F) (v : F),
      (all_faces_in s fv sc).1 = some v →
        fv ≤ v ∧ (∀ f ∈ facetsOf s, ∃ g, sc.lookup (canon f) = some g ∧ g ≤ v) ∧
        (v = fv ∨ ∃ f ∈ facetsOf s, sc.lookup (canon f) = some v)) ∧
    (∀ (nbL : Nat) (rankings : List (List (Nat × F))) (sc : SComplex F)
      (alpha2 : F) (limit : Int), sc.numVertices = 0 →
      ∀ p ∈ create_complex nbL rankings sc alpha2 limit,
        ∀ q ∈ p.2.simplices, ∀ G ∈ q.1.sublists, G ≠ [] → G ≠ q.1 →
          ∃ g, p.2.lookup G = some g ∧ g ≤ q.2) := by
  refine ⟨?_, ?_, ?_⟩
  · intro d r
    show (if r < d then d - r else 0) = max 0 (d - r)
    rcases lt_or_le r d with h | h
    · rw [if_pos h, max_eq_right (sub_nonneg.mpr (le_of_lt h))]
    · rw [if_neg (not_lt.mpr h), max_eq_left (sub_nonpos.mpr h)]
  · intro s fv sc v h
    rw [all_faces_in_eq] at h
    exact afi_some_spec h
  · intro nbL rankings sc alpha2 limit h0 p hp q hq G hG hne hneq
    exact mono_faces (mono_create h0 hp) q.1 q.2 hq G (List.mem_sublists.mp hG) hne hneq

/-- Claim C2 witness: a concrete instantiation of all three parts. -/
theorem claim_C2_filtration_monotonicity_witness :
    (excessFv (3 : Int) (some 1) = max 0 (3 - 1)) ∧
    ((3 : Int) ≤ 3 ∧
      (∀ f ∈ facetsOf [0, 2], ∃ g,
        ((seedVertices 3 (emptySC (F := Int))).lookup (canon f)) = some g ∧ g ≤ 3) ∧
      ((3 : Int) = 3 ∨ ∃ f ∈ facetsOf [0, 2],
        (seedVertices 3 (emptySC (F := Int))).lookup (canon f) = some 3)) ∧
    ((emptySC (F := Int)).numVertices = 0 ∧
      ∀ p ∈ create_complex 3 [[(0, 0), (1, 1), (2, 3)], [(0, 0), (2, 1), (1, 3)]]
          (emptySC (F := Int)) 2 3,
        ∀ q ∈ p.2.simplices, ∀ G ∈ q.1.sublists, G ≠ [] → G ≠ q.1 →
          ∃ g, p.2.lookup G = some g ∧ g ≤ q.2) :=
  ⟨(claim_C2_filtration_monotonicity (F := Int)).1 3 1,
   (claim_C2_filtration_monotonicity (F := Int)).2.1 [0, 2] 3
     (seedVertices 3 emptySC) 3 (by decide),
   ⟨by decide,
    (claim_C2_filtration_monotonicity (F := Int)).2.2 3
      [[(0, 0), (1, 1), (2, 3)], [(0, 0), (2, 1), (1, 3)]] emptySC 2 3 (by decide)⟩⟩

/-! ## Seeding and the shape of `create_complex` results -/

theorem seedVertices_succ (n : Nat) (sc : SComplex F) :
    seedVertices (n + 1) sc = (seedVertices n sc).insert_simplex [n] 0 := by
  unfold seedVertices
  rw [List.range_succ, List.foldl_append]
  rfl

theorem seed_lookup (nbL : Nat) (sc : SComplex F) (h : ∀ K ∈ sc.keys, K = []) :
    ∀ m, (seedVertices nbL sc).lookup [m] = if m < nbL then some 0 else none := by
  induction nbL with
  | zero =>
    intro m
    rw [if_neg (by omega)]
    show sc.lookup [m] = none
    cases hl : sc.lookup [m] with
    | none => rfl
    | some v => cases h _ (mem_keys_of_lookup hl)
  | succ n ih =>
    intro m
    rw [seedVertices_succ, insert_lookup, canon_singleton, ih n, ih m]
    rw [if_neg (by omega : ¬ n < n)]
    by_cases hm : n = m
    · subst hm
      rw [if_pos ⟨rfl, rfl⟩, if_pos (by omega)]
    · have hne : ¬((none : Option F) = none ∧ [n] = [m]) := by
        rintro ⟨-, he⟩
        exact hm (by simpa using he)
      rw [if_neg hne]
      by_cases hlt : m < n
      · rw [if_pos hlt, if_pos (by omega)]
      · rw [if_neg hlt, if_neg (by omega)]

/-- Anatomy of a successful run. -/
theorem create_success {nbL : Nat} {rankings : List (List (Nat × F))} {sc : SComplex F}
    {alpha2 : F} {limit : Int} {sc' : SComplex F}
    (h : create_complex nbL rankings sc alpha2 limit = some (true, sc')) :
    sc.numVertices = 0 ∧ 0 ≤ alpha2 ∧ 0 ≤ limit ∧ rankings ≠ [] ∧
    sc' = ((buildLoop alpha2 limit (limit.toNat + 1) 1 rankings
        (seedVertices nbL sc)).2).set_dimension
      ((buildLoop alpha2 limit (limit.toNat + 1) 1 rankings (seedVertices nbL sc)).1 - 1) := by
  unfold create_complex at h
  by_cases h0 : 0 < sc.numVertices
  · rw [if_pos h0] at h; simp at h
  · rw [if_neg h0] at h
    by_cases hα : alpha2 < 0
    · rw [if_pos hα] at h; simp at h
    · rw [if_neg hα] at h
      by_cases hl : limit < 0
      · rw [if_pos hl] at h; simp at h
      · rw [if_neg hl] at h
        cases rankings with
        | nil => cases h
        | cons w ws =>
          simp only [Option.some.injEq, Prod.mk.injEq, true_and] at h
          exact ⟨by omega, not_lt.mp hα, not_lt.mp hl, by simp, h.symm⟩

theorem set_dimension_lookup (sc : SComplex F) (d : Int) (K : List Nat) :
    (sc.set_dimension d).lookup K = sc.lookup K := rfl

theorem create_success_lookup_vertex {nbL : Nat} {rankings : List (List (Nat × F))}
    {sc : SComplex F} {alpha2 : F} {limit : Int} {sc' : SComplex F}
    (h : create_complex nbL rankings sc alpha2 limit = some (true, sc')) :
    ∀ i < nbL, sc'.lookup [i] = some 0 := by
  obtain ⟨h0, -, -, -, hsc⟩ := create_success h
  intro i hi
  have hseed : (seedVertices nbL sc).lookup [i] = some 0 := by
    rw [seed_lookup nbL sc (numVertices_zero_keys h0) i, if_pos hi]
  have hbl := (grows_buildLoop alpha2 limit (limit.toNat + 1) 1 rankings
    (seedVertices nbL sc)).1 [i] 0 hseed
  rw [hsc, set_dimension_lookup]
  exact hbl

theorem numVertices_pos_of_key {sc : SComplex F} {K : List Nat}
    (hK : K ∈ sc.keys) (hne : K ≠ []) : 0 < sc.numVertices := by
  obtain ⟨x, hx⟩ := List.exists_mem_of_ne_nil K hne
  have hxf : x ∈ (sc.simplices.map Prod.fst).flatten :=
    List.mem_flatten.mpr ⟨K, hK, hx⟩
  have : x ∈ (sc.simplices.map Prod.fst).flatten.dedup := List.mem_dedup.mpr hxf
  unfold SComplex.numVertices
  exact List.length_pos.mpr (List.ne_nil_of_mem this)

/-- Claim C3 (precondition failure is side-effect free): whenever the
target complex has a vertex, or the relaxation is negative, or the
dimension limit is negative, `create_complex` returns `false` and
returns the target complex unchanged (so no `insert_simplex` or
`set_dimension` was applied to it — even the call logs are unchanged);
moreover a successful run with at least one landmark leaves the
complex populated, so re-running construction on it fails the
non-emptiness check and changes nothing. -/
theorem claim_C3_precondition_failure :
    (∀ (nbL : Nat) (rankings : List (List (Nat × F))) (sc : SComplex F)
      (alpha2 : F) (limit : Int),
      0 < sc.numVertices ∨ alpha2 < 0 ∨ limit < 0 →
      create_complex nbL rankings sc alpha2 limit = some (false, sc)) ∧
    (∀ (nbL : Nat) (rankings : List (List (Nat × F))) (sc : SComplex F)
      (alpha2 : F) (limit : Int), 0 < nbL →
      ∀ p ∈ create_complex nbL rankings sc alpha2 limit, p.1 = true →
        ∀ (nbL' : Nat) (rankings' : List (List (Nat × F))) (alpha2' : F) (limit' : Int),
          create_complex nbL' rankings' p.2 alpha2' limit' = some (false, p.2)) := by
  have part1 : ∀ (nbL : Nat) (rankings : List (List (Nat × F))) (sc : SComplex F)
      (alpha2 : F) (limit : Int),
      0 < sc.numVertices ∨ alpha2 < 0 ∨ limit < 0 →
      create_complex nbL rankings sc alpha2 limit = some (false, sc) := by
    intro nbL rankings sc alpha2 limit h
    unfold create_complex
    by_cases h0 : 0 < sc.numVertices
    · rw [if_pos h0]
    · rw [if_neg h0]
      by_cases hα : alpha2 < 0
      · rw [if_pos hα]
      · rw [if_neg hα]
        rcases h with h | h | h
        · exact absurd h h0
        · exact absurd h hα
        · rw [if_pos h]
  refine ⟨part1, ?_⟩
  intro nbL rankings sc alpha2 limit hnbL p hp hptrue nbL' rankings' alpha2' limit'
  obtain ⟨b, sc'⟩ := p
  simp only at hptrue
  subst hptrue
  rw [Option.mem_def] at hp
  have hv := create_success_lookup_vertex hp 0 hnbL
  have hpos : 0 < sc'.numVertices :=
    numVertices_pos_of_key (mem_keys_of_lookup hv) (by simp)
  exact part1 nbL' rankings' sc' alpha2' limit' (Or.inl hpos)

/-- Claim C3 witness: a populated complex (one stored vertex) is
rejected unchanged; a successful run on two landmarks re-run fails
and changes nothing. -/
theorem claim_C3_precondition_failure_witness :
    (create_complex 2 [[(0, 0)]] (⟨[([5], 1)], 0, [], []⟩ : SComplex Int) 0 1 =
      some (false, ⟨[([5], 1)], 0, [], []⟩)) ∧
    (0 < 2 ∧
      ∀ p ∈ create_complex 2 [[((0 : Nat), (0 : Int)), (1, 1)]] emptySC 0 1, p.1 = true →
        create_complex 2 [[(0, 0), (1, 1)]] p.2 0 1 = some (false, p.2)) :=
  ⟨(claim_C3_precondition_failure (F := Int)).1 2 [[(0, 0)]] ⟨[([5], 1)], 0, [], []⟩ 0 1
      (Or.inl (by decide)),
   by decide,
   fun p hp hptrue =>
     (claim_C3_precondition_failure (F := Int)).2 2 [[(0, 0), (1, 1)]] emptySC 0 1
       (by decide) p hp hptrue 2 [[(0, 0), (1, 1)]] 0 1⟩

/-- Claim C4 (dimension-0 completeness): seeding inserts every
landmark id below `nbL` as a 0-simplex with filtration 0 before the
dimension loop starts, and after any successful run every landmark id
below `nbL` is still stored as a 0-simplex with filtration value 0. -/
theorem claim_C4_dimension_zero_completeness :
    (∀ (nbL : Nat) (sc : SComplex F), sc.numVertices = 0 →
      ∀ i < nbL, (seedVertices nbL sc).lookup [i] = some 0) ∧
    (∀ (nbL : Nat) (rankings : List (List (Nat × F))) (sc : SComplex F)
      (alpha2 : F) (limit : Int),
      ∀ p ∈ create_complex nbL rankings sc alpha2 limit, p.1 = true →
        ∀ i < nbL, p.2.lookup [i] = some 0) := by
  constructor
  · intro nbL sc h0 i hi
    rw [seed_lookup nbL sc (numVertices_zero_keys h0) i, if_pos hi]
  · intro nbL rankings sc alpha2 limit p hp hptrue i hi
    obtain ⟨b, sc'⟩ := p
    simp only at hptrue
    subst hptrue
    rw [Option.mem_def] at hp
    exact create_success_lookup_vertex hp i hi

/-- Claim C4 witness: both parts at concrete inputs. -/
theorem claim_C4_dimension_zero_completeness_witness :
    ((emptySC (F := Int)).numVertices = 0 ∧
      ∀ i < 3, (seedVertices 3 (emptySC (F := Int))).lookup [i] = some 0) ∧
    (∀ p ∈ create_complex 3 [[((0 : Nat), (2 : Int)), (2, 5), (1, 6)]] emptySC 1 4,
      p.1 = true → ∀ i < 3, p.2.lookup [i] = some 0) :=
  ⟨⟨by decide, (claim_C4_dimension_zero_completeness (F := Int)).1 3 emptySC (by decide)⟩,
   (claim_C4_dimension_zero_completeness (F := Int)).2 3
     [[(0, 2), (2, 5), (1, 6)]] emptySC 1 4⟩

/-- Claim C10 (implicit non-empty-witness precondition): when the
three precondition checks pass, `create_complex` dereferences the
front of the active-witness list, which is undefined exactly when the
witness range is empty: the embedding returns `none` precisely for an
empty witness range (and a defined result otherwise). -/
theorem claim_C10_empty_witness_range :
    ∀ (nbL : Nat) (rankings : List (List (Nat × F))) (sc : SComplex F)
      (alpha2 : F) (limit : Int),
      sc.numVertices = 0 → 0 ≤ alpha2 → 0 ≤ limit →
      (create_complex nbL rankings sc alpha2 limit = none ↔ rankings = []) := by
  intro nbL rankings sc alpha2 limit h0 hα hl
  unfold create_complex
  rw [if_neg (by omega), if_neg (not_lt.mpr hα), if_neg (not_lt.mpr hl)]
  cases rankings with
  | nil => simp
  | cons w ws => simp

/-- Claim C10 witness: an empty witness range yields the undefined
front access; a single witness yields a defined run. -/
theorem claim_C10_empty_witness_range_witness :
    ((emptySC (F := Int)).numVertices = 0 ∧ (0 : Int) ≤ 0 ∧ (0 : Int) ≤ (2 : Int)) ∧
    (create_complex 1 ([] : List (List (Nat × Int))) emptySC 0 2 = none ↔
      ([] : List (List (Nat × Int))) = []) :=
  ⟨⟨by decide, by decide, by decide⟩,
   claim_C10_empty_witness_range 1 [] emptySC 0 2 (by decide) (by decide) (by decide)⟩

/-- Claim C5 (pruning rule): in both candidate-scanning loops the
cursor is consumed sequentially — when the guard
`distance - alpha2 <= norelax_dist2` holds, the head candidate is
pushed and processed and the scan proceeds to the remaining suffix
with the tightened threshold — and the scan stops at the first
candidate whose squared distance minus `alpha2` exceeds the current
threshold (the loop returns the accumulator and the complex untouched:
nothing is pushed or recursed into beyond that bound), as well as when
the ranking is exhausted. -/
theorem claim_C5_pruning_rule :
    (∀ (alpha2 : F) (dim : Int) (nr : Option F) (i : Nat) (d : F) (rest : List (Nat × F))
      (simplex : List Nat) (sc : SComplex F) (acc : Bool),
      distLe (d - alpha2) nr = false →
      dimPosLoop alpha2 dim nr ((i, d) :: rest) simplex sc acc = (acc, sc)) ∧
    (∀ (alpha2 : F) (nr : Option F) (i : Nat) (d : F) (rest : List (Nat × F))
      (simplex : List Nat) (sc : SComplex F) (acc : Bool),
      distLe (d - alpha2) nr = false →
      dimZeroLoop alpha2 nr ((i, d) :: rest) simplex sc acc = (acc, sc)) ∧
    (∀ (alpha2 : F) (dim : Int) (nr : Option F) (simplex : List Nat) (sc : SComplex F)
      (acc : Bool),
      dimPosLoop alpha2 dim nr [] simplex sc acc = (acc, sc) ∧
      dimZeroLoop alpha2 nr [] simplex sc acc = (acc, sc)) ∧
    (∀ (alpha2 : F) (nr : Option F) (i : Nat) (d : F) (rest : List (Nat × F))
      (simplex : List Nat) (sc : SComplex F) (acc : Bool),
      distLe (d - alpha2) nr = true →
      dimZeroLoop alpha2 nr ((i, d) :: rest) simplex sc acc =
        (match (all_faces_in (simplex ++ [i]) (excessFv d nr) sc).1 with
         | some fv => dimZeroLoop alpha2 (tightenLt nr d) rest simplex
             (((all_faces_in (simplex ++ [i]) (excessFv d nr) sc).2).insert_simplex
               (simplex ++ [i]) fv) true
         | none => dimZeroLoop alpha2 (tightenLt nr d) rest simplex
             ((all_faces_in (simplex ++ [i]) (excessFv d nr) sc).2) acc)) := by
  refine ⟨?_, ?_, ?_, ?_⟩
  · intro alpha2 dim nr i d rest simplex sc acc h
    simp only [dimPosLoop]
    rw [if_neg (by simp [h])]
  · intro alpha2 nr i d rest simplex sc acc h
    simp only [dimZeroLoop]
    rw [if_neg (by simp [h])]
  · intro alpha2 dim nr simplex sc acc
    exact ⟨rfl, rfl⟩
  · intro alpha2 nr i d rest simplex sc acc h
    simp only [dimZeroLoop]
    rw [if_pos (by simp [h])]

/-- Claim C5 witness: concrete instantiations of all four parts. -/
theorem claim_C5_pruning_rule_witness :
    (distLe ((5 : Int) - 1) (some 2) = false ∧
      dimPosLoop (1 : Int) 1 (some 2) [(7, 5)] [] emptySC false = (false, emptySC)) ∧
    (dimZeroLoop (1 : Int) (some 2) [(7, 5)] [0] emptySC true = (true, emptySC)) ∧
    (dimPosLoop (1 : Int) 1 none [] [] emptySC false = (false, emptySC) ∧
      dimZeroLoop (1 : Int) none [] [] emptySC false = (false, emptySC)) ∧
    (dimZeroLoop (0 : Int) none [(1, 3)] [0] (seedVertices 2 emptySC) false =
      (match (all_faces_in [0, 1] (excessFv 3 none)
          (seedVertices 2 (emptySC (F := Int)))).1 with
       | some fv => dimZeroLoop 0 (tightenLt none 3) [] [0]
           (((all_faces_in [0, 1] (excessFv 3 none) (seedVertices 2 emptySC)).2).insert_simplex
             [0, 1] fv) true
       | none => dimZeroLoop 0 (tightenLt none 3) [] [0]
           ((all_faces_in [0, 1] (excessFv 3 none) (seedVertices 2 emptySC)).2) false)) :=
  ⟨⟨by decide, (claim_C5_pruning_rule (F := Int)).1 1 1 (some 2) 7 5 [] [] emptySC false
      (by decide)⟩,
   (claim_C5_pruning_rule (F := Int)).2.1 1 (some 2) 7 5 [] [0] emptySC true (by decide),
   (claim_C5_pruning_rule (F := Int)).2.2.1 1 1 none [] emptySC false,
   (claim_C5_pruning_rule (F := Int)).2.2.2 0 none 1 3 [] [0] (seedVertices 2 emptySC)
     false (by decide)⟩

/-! ## Return value versus insert calls -/

theorem grows_insLog_le {sc sc' : SComplex F} (h : Grows sc sc') :
    sc.insLog.length ≤ sc'.insLog.length := by
  obtain ⟨p, hp⟩ := h.2.2.2
  rw [hp, List.length_append]
  omega

theorem dimZeroLoop_true_iff (alpha2 : F) (nr : Option F) (rem : List (Nat × F))
    (simplex : List Nat) (sc : SComplex F) (acc : Bool) :
    ((dimZeroLoop alpha2 nr rem simplex sc acc).1 = true) ↔
      (acc = true ∨
        sc.insLog.length < ((dimZeroLoop alpha2 nr rem simplex sc acc).2).insLog.length) := by
  induction rem generalizing nr simplex sc acc with
  | nil => simp [dimZeroLoop]
  | cons hd rest ih =>
    obtain ⟨i, d⟩ := hd
    simp only [dimZeroLoop]
    by_cases hg : distLe (d - alpha2) nr
    · rw [if_pos hg]
      cases hq : (all_faces_in (simplex ++ [i]) (excessFv d nr) sc).1 with
      | some fv =>
        rw [ih]
        have hlen : sc.insLog.length <
            (((all_faces_in (simplex ++ [i]) (excessFv d nr) sc).2).insert_simplex
              (simplex ++ [i]) fv).insLog.length := by
          rw [insert_insLog, List.length_cons, all_faces_in_eq, afi_insLog]
          omega
        have hmono := grows_insLog_le (grows_dimZeroLoop alpha2 (tightenLt nr d) rest simplex
          (((all_faces_in (simplex ++ [i]) (excessFv d nr) sc).2).insert_simplex
            (simplex ++ [i]) fv) true)
        constructor
        · intro _
          exact Or.inr (lt_of_lt_of_le hlen hmono)
        · intro _
          exact Or.inl rfl
      | none =>
        rw [ih]
        rw [all_faces_in_eq, afi_insLog]
    · rw [if_neg hg]
      simp

theorem dimPosLoop_true_iff (alpha2 : F) (dim : Int) (nr : Option F) (rem : List (Nat × F))
    (simplex : List Nat) (sc : SComplex F) (acc : Bool) :
    ((dimPosLoop alpha2 dim nr rem simplex sc acc).1 = true) ↔
      (acc = true ∨
        sc.insLog.length < ((dimPosLoop alpha2 dim nr rem simplex sc acc).2).insLog.length) := by
  induction rem generalizing dim nr simplex sc acc with
  | nil => simp [dimPosLoop]
  | cons hd rest ih =>
    obtain ⟨i, d⟩ := hd
    have hadd : ∀ (dim' : Int) (nr' : Option F) (s'' : List Nat) (sc'' : SComplex F),
        (((add_all_faces_of_dimension dim' alpha2 nr' rest s'' sc'').1 = true) ↔
          sc''.insLog.length <
            ((add_all_faces_of_dimension dim' alpha2 nr' rest s'' sc'').2).insLog.length) ∧
        sc''.insLog.length ≤
          ((add_all_faces_of_dimension dim' alpha2 nr' rest s'' sc'').2).insLog.length := by
      intro dim' nr' s'' sc''
      refine ⟨?_, grows_insLog_le (grows_add _ _ _ _ _ _)⟩
      cases rest with
      | nil => simp [add_all_faces_of_dimension]
      | cons a b =>
        simp only [add_all_faces_of_dimension]
        by_cases h1 : 0 < dim'
        · rw [if_pos h1, ih]
          simp
        · rw [if_neg h1]
          by_cases h2 : dim' = 0
          · rw [if_pos h2, dimZeroLoop_true_iff]
            simp
          · rw [if_neg h2]
            simp
    simp only [dimPosLoop]
    by_cases hg : distLe (d - alpha2) nr
    · rw [if_pos hg]
      by_cases hq : ((sc.find (simplex ++ [i])).1).isSome
      · rw [if_pos hq]
        rw [ih]
        generalize hR1 :
          (match rest with
           | [] => (false, (sc.find (simplex ++ [i])).2)
           | _ :: _ =>
             if 0 < dim - 1 then
               dimPosLoop alpha2 (dim - 1) nr rest (simplex ++ [i])
                 (sc.find (simplex ++ [i])).2 false
             else if dim - 1 = 0 then
               dimZeroLoop alpha2 nr rest (simplex ++ [i])
                 (sc.find (simplex ++ [i])).2 false
             else (false, (sc.find (simplex ++ [i])).2)) = R1
        have hR1eq : add_all_faces_of_dimension (dim - 1) alpha2 nr rest
            (simplex ++ [i]) (sc.find (simplex ++ [i])).2 = R1 := by
          rw [← hR1]
          cases rest <;> rfl
        generalize hR2 :
          (match rest with
           | [] => (false, R1.2)
           | _ :: _ =>
             if 0 < dim then dimPosLoop alpha2 dim (tightenLe nr d) rest simplex R1.2 false
             else if dim = 0 then dimZeroLoop alpha2 (tightenLe nr d) rest simplex R1.2 false
             else (false, R1.2)) = R2
        have hR2eq : add_all_faces_of_dimension dim alpha2 (tightenLe nr d) rest
            simplex R1.2 = R2 := by
          rw [← hR2]
          cases rest <;> rfl
        have hr1iff := (hadd (dim - 1) nr (simplex ++ [i]) (sc.find (simplex ++ [i])).2).1
        have hr1le := (hadd (dim - 1) nr (simplex ++ [i]) (sc.find (simplex ++ [i])).2).2
        rw [hR1eq] at hr1iff hr1le
        have hr2iff := (hadd dim (tightenLe nr d) simplex R1.2).1
        have hr2le := (hadd dim (tightenLe nr d) simplex R1.2).2
        rw [hR2eq] at hr2iff hr2le
        have hmono := grows_insLog_le (grows_dimPosLoop alpha2 dim (tightenLe nr d)
          rest simplex R2.2 (R2.1 || (R1.1 || acc)))
        have hfind : (sc.find (simplex ++ [i])).2.insLog.length = sc.insLog.length := by
          rw [find_snd_insLog]
        rw [hfind] at hr1iff hr1le
        simp only [Bool.or_eq_true]
        constructor
        · rintro ((h | h | h) | h)
          · have := hr2iff.mp h
            right; omega
          · have := hr1iff.mp h
            right; omega
          · exact Or.inl h
          · right; omega
        · rintro (h | h)
          · exact Or.inl (Or.inr (Or.inr h))
          · by_cases hr1 : R1.1 = true
            · exact Or.inl (Or.inr (Or.inl hr1))
            · by_cases hr2 : R2.1 = true
              · exact Or.inl (Or.inl hr2)
              · right
                have e1 : ¬ sc.insLog.length < R1.2.insLog.length :=
                  fun hlt => hr1 (hr1iff.mpr hlt)
                have e2 : ¬ R1.2.insLog.length < R2.2.insLog.length :=
                  fun hlt => hr2 (hr2iff.mpr hlt)
                omega
      · rw [if_neg hq]
        rw [ih]
        generalize hR2 :
          (match rest with
           | [] => (false, (sc.find (simplex ++ [i])).2)
           | _ :: _ =>
             if 0 < dim then
               dimPosLoop alpha2 dim (tightenLe nr d) rest simplex
                 (sc.find (simplex ++ [i])).2 false
             else if dim = 0 then
               dimZeroLoop alpha2 (tightenLe nr d) rest simplex
                 (sc.find (simplex ++ [i])).2 false
             else (false, (sc.find (simplex ++ [i])).2)) = R2
        have hR2eq : add_all_faces_of_dimension dim alpha2 (tightenLe nr d) rest
            simplex (sc.find (simplex ++ [i])).2 = R2 := by
          rw [← hR2]
          cases rest <;> rfl
        have hr2iff := (hadd dim (tightenLe nr d) simplex (sc.find (simplex ++ [i])).2).1
        have hr2le := (hadd dim (tightenLe nr d) simplex (sc.find (simplex ++ [i])).2).2
        rw [hR2eq] at hr2iff hr2le
        have hmono := grows_insLog_le (grows_dimPosLoop alpha2 dim (tightenLe nr d)
          rest simplex R2.2 (R2.1 || (false || acc)))
        have hfind : (sc.find (simplex ++ [i])).2.insLog.length = sc.insLog.length := by
          rw [find_snd_insLog]
        rw [hfind] at hr2iff hr2le
        simp only [Bool.or_eq_true, Bool.false_eq_true, false_or]
        constructor
        · rintro ((h | h) | h)
          · have := hr2iff.mp h
            right; omega
          · exact Or.inl h
          · right; omega
        · rintro (h | h)
          · exact Or.inl (Or.inr h)
          · by_cases hr2 : R2.1 = true
            · exact Or.inl (Or.inl hr2)
            · right
              have e2 : ¬ sc.insLog.length < R2.2.insLog.length :=
                fun hlt => hr2 (hr2iff.mpr hlt)
              omega
    · rw [if_neg hg]
      simp

theorem add_true_iff (dim : Int) (alpha2 : F) (nr : Option F) (rem : List (Nat × F))
    (simplex : List Nat) (sc : SComplex F) :
    ((add_all_faces_of_dimension dim alpha2 nr rem simplex sc).1 = true) ↔
      sc.insLog.length <
        ((add_all_faces_of_dimension dim alpha2 nr rem simplex sc).2).insLog.length := by
  cases rem with
  | nil => simp [add_all_faces_of_dimension]
  | cons a b =>
    simp only [add_all_faces_of_dimension]
    by_cases h1 : 0 < dim
    · rw [if_pos h1, dimPosLoop_true_iff]
      simp
    · rw [if_neg h1]
      by_cases h2 : dim = 0
      · rw [if_pos h2, dimZeroLoop_true_iff]
        simp
      · rw [if_neg h2]
        simp

theorem onePass_sublist (k : Int) (alpha2 : F) (aws : List (List (Nat × F)))
    (sc : SComplex F) : ((onePass k alpha2 aws sc).1).Sublist aws := by
  induction aws generalizing sc with
  | nil => simp [onePass]
  | cons w rest ih =>
    simp only [onePass]
    cases hr : (add_all_faces_of_dimension k alpha2 none w [] sc).1 with
    | true =>
      simp only [if_pos rfl]
      exact (ih _).cons₂ w
    | false =>
      simp only [Bool.false_eq_true, if_false]
      exact (ih _).cons w

/-- Claim C6 (recursion result and witness deactivation):
`add_all_faces_of_dimension` returns `true` exactly when it (or a
nested recursive call) performed at least one `insert_simplex` call
(the insert log strictly grew); it returns `false` with the complex
untouched when the cursor has exhausted the ranking; and the witness
loop of `create_complex` keeps a witness exactly when its call
returned `true` — the surviving list, which alone is processed at the
next dimension, is the sublist of the active list of those witnesses. -/
theorem claim_C6_deactivation :
    (∀ (dim : Int) (alpha2 : F) (nr : Option F) (rem : List (Nat × F))
      (simplex : List Nat) (sc : SComplex F),
      ((add_all_faces_of_dimension dim alpha2 nr rem simplex sc).1 = true) ↔
        sc.insLog.length <
          ((add_all_faces_of_dimension dim alpha2 nr rem simplex sc).2).insLog.length) ∧
    (∀ (dim : Int) (alpha2 : F) (nr : Option F) (simplex : List Nat) (sc : SComplex F),
      add_all_faces_of_dimension dim alpha2 nr [] simplex sc = (false, sc)) ∧
    (∀ (k : Int) (alpha2 : F) (w : List (Nat × F)) (rest : List (List (Nat × F)))
      (sc : SComplex F),
      onePass k alpha2 (w :: rest) sc =
        (if (add_all_faces_of_dimension k alpha2 none w [] sc).1 then
           w :: (onePass k alpha2 rest (add_all_faces_of_dimension k alpha2 none w [] sc).2).1
         else (onePass k alpha2 rest (add_all_faces_of_dimension k alpha2 none w [] sc).2).1,
         (onePass k alpha2 rest (add_all_faces_of_dimension k alpha2 none w [] sc).2).2)) ∧
    (∀ (k : Int) (alpha2 : F) (aws : List (List (Nat × F))) (sc : SComplex F),
      ((onePass k alpha2 aws sc).1).Sublist aws) :=
  ⟨fun dim alpha2 nr rem simplex sc => add_true_iff dim alpha2 nr rem simplex sc,
   fun _ _ _ _ _ => rfl,
   fun _ _ _ _ _ => rfl,
   fun k alpha2 aws sc => onePass_sublist k alpha2 aws sc⟩

/-! ## The raw vertex lists handed to the target complex -/

theorem facets_sublist {f s' : List Nat} (h : f ∈ facetsOf s') : f.Sublist s' := by
  obtain ⟨j, -, hf⟩ := List.mem_map.mp h
  exact hf ▸ List.eraseIdx_sublist s' j

theorem push_sublist (simplex : List Nat) (i : Nat) (restIds : List Nat) :
    (simplex ++ [i]).Sublist (simplex ++ i :: restIds) :=
  (List.append_sublist_append_left simplex).mpr ((List.nil_sublist restIds).cons₂ i)

theorem tail_sublist_target (simplex : List Nat) (i : Nat) (restIds : List Nat) :
    (simplex ++ restIds).Sublist (simplex ++ i :: restIds) :=
  (List.append_sublist_append_left simplex).mpr ((List.Sublist.refl restIds).cons i)

theorem logs_dimZeroLoop (alpha2 : F) (nr : Option F) (rem : List (Nat × F))
    (simplex : List Nat) (sc : SComplex F) (acc : Bool) :
    ∃ pf pi,
      ((dimZeroLoop alpha2 nr rem simplex sc acc).2).findLog = pf ++ sc.findLog ∧
      ((dimZeroLoop alpha2 nr rem simplex sc acc).2).insLog = pi ++ sc.insLog ∧
      (∀ l ∈ pf, l.Sublist (simplex ++ rem.map Prod.fst)) ∧
      (∀ q ∈ pi, (q : List Nat × F).1.Sublist (simplex ++ rem.map Prod.fst)) := by
  induction rem generalizing nr sc acc with
  | nil => exact ⟨[], [], rfl, rfl, by simp, by simp⟩
  | cons hd rest ih =>
    obtain ⟨i, d⟩ := hd
    simp only [dimZeroLoop]
    by_cases hg : distLe (d - alpha2) nr
    · rw [if_pos hg]
      have hs' : (simplex ++ [i]).Sublist (simplex ++ ((i, d) :: rest).map Prod.fst) :=
        push_sublist simplex i (rest.map Prod.fst)
      have htail : ∀ l : List Nat, l.Sublist (simplex ++ rest.map Prod.fst) →
          l.Sublist (simplex ++ ((i, d) :: rest).map Prod.fst) :=
        fun l hl => hl.trans (tail_sublist_target simplex i (rest.map Prod.fst))
      obtain ⟨pa, hpa, hpamem⟩ :=
        afi_findLog (facetsOf (simplex ++ [i])) (excessFv d nr) sc
      cases hq : (all_faces_in (simplex ++ [i]) (excessFv d nr) sc).1 with
      | some fv =>
        obtain ⟨pf, pi, hpf, hpi, hpfmem, hpimem⟩ := ih (tightenLt nr d)
          (((all_faces_in (simplex ++ [i]) (excessFv d nr) sc).2).insert_simplex
            (simplex ++ [i]) fv) true
        refine ⟨pf ++ pa, pi ++ [(simplex ++ [i], fv)], ?_, ?_, ?_, ?_⟩
        · rw [hpf, insert_findLog, all_faces_in_eq, hpa, ← List.append_assoc]
        · rw [hpi, insert_insLog, all_faces_in_eq, afi_insLog]
          simp
        · intro l hl
          rcases List.mem_append.mp hl with hl | hl
          · exact htail l (hpfmem l hl)
          · exact (facets_sublist (hpamem l hl)).trans hs'
        · intro q hq'
          rcases List.mem_append.mp hq' with hq' | hq'
          · exact htail q.1 (hpimem q hq')
          · simp only [List.mem_singleton] at hq'
            rw [hq']
            exact hs'
      | none =>
        obtain ⟨pf, pi, hpf, hpi, hpfmem, hpimem⟩ := ih (tightenLt nr d)
          ((all_faces_in (simplex ++ [i]) (excessFv d nr) sc).2) acc
        refine ⟨pf ++ pa, pi, ?_, ?_, ?_, ?_⟩
        · rw [hpf, all_faces_in_eq, hpa, ← List.append_assoc]
        · rw [hpi, all_faces_in_eq, afi_insLog]
        · intro l hl
          rcases List.mem_append.mp hl with hl | hl
          · exact htail l (hpfmem l hl)
          · exact (facets_sublist (hpamem l hl)).trans hs'
        · intro q hq'
          exact htail q.1 (hpimem q hq')
    · rw [if_neg hg]
      exact ⟨[], [], rfl, rfl, by simp, by simp⟩

theorem logs_dimPosLoop (alpha2 : F) (dim : Int) (nr : Option F) (rem : List (Nat × F))
    (simplex : List Nat) (sc : SComplex F) (acc : Bool) :
    ∃ pf pi,
      ((dimPosLoop alpha2 dim nr rem simplex sc acc).2).findLog = pf ++ sc.findLog ∧
      ((dimPosLoop alpha2 dim nr rem simplex sc acc).2).insLog = pi ++ sc.insLog ∧
      (∀ l ∈ pf, l.Sublist (simplex ++ rem.map Prod.fst)) ∧
      (∀ q ∈ pi, (q : List Nat × F).1.Sublist (simplex ++ rem.map Prod.fst)) := by
  induction rem generalizing dim nr simplex sc acc with
  | nil => exact ⟨[], [], rfl, rfl, by simp, by simp⟩
  | cons hd rest ih =>
    obtain ⟨i, d⟩ := hd
    have hadd : ∀ (dim' : Int) (nr' : Option F) (s'' : List Nat) (sc'' : SComplex F),
        ∃ pf pi,
          ((add_all_faces_of_dimension dim' alpha2 nr' rest s'' sc'').2).findLog =
            pf ++ sc''.findLog ∧
          ((add_all_faces_of_dimension dim' alpha2 nr' rest s'' sc'').2).insLog =
            pi ++ sc''.insLog ∧
          (∀ l ∈ pf, l.Sublist (s'' ++ rest.map Prod.fst)) ∧
          (∀ q ∈ pi, (q : List Nat × F).1.Sublist (s'' ++ rest.map Prod.fst)) := by
      intro dim' nr' s'' sc''
      cases rest with
      | nil => exact ⟨[], [], rfl, rfl, by simp, by simp⟩
      | cons a b =>
        simp only [add_all_faces_of_dimension]
        by_cases h1 : 0 < dim'
        · rw [if_pos h1]; exact ih _ _ _ _ _
        · rw [if_neg h1]
          by_cases h2 : dim' = 0
          · rw [if_pos h2]; exact logs_dimZeroLoop _ _ _ _ _ _
          · rw [if_neg h2]; exact ⟨[], [], rfl, rfl, by simp, by simp⟩
    simp only [dimPosLoop]
    by_cases hg : distLe (d - alpha2) nr
    · rw [if_pos hg]
      have hs' : (simplex ++ [i]).Sublist (simplex ++ ((i, d) :: rest).map Prod.fst) :=
        push_sublist simplex i (rest.map Prod.fst)
      have htail : ∀ l : List Nat, l.Sublist (simplex ++ rest.map Prod.fst) →
          l.Sublist (simplex ++ ((i, d) :: rest).map Prod.fst) :=
        fun l hl => hl.trans (tail_sublist_target simplex i (rest.map Prod.fst))
      have hpushtail : ∀ l : List Nat, l.Sublist ((simplex ++ [i]) ++ rest.map Prod.fst) →
          l.Sublist (simplex ++ ((i, d) :: rest).map Prod.fst) := by
        intro l hl
        rw [List.append_assoc, List.singleton_append] at hl
        exact hl
      generalize hR1 :
        (match rest with
         | [] => (false, (sc.find (simplex ++ [i])).2)
         | _ :: _ =>
           if 0 < dim - 1 then
             dimPosLoop alpha2 (dim - 1) nr rest (simplex ++ [i])
               (sc.find (simplex ++ [i])).2 false
           else if dim - 1 = 0 then
             dimZeroLoop alpha2 nr rest (simplex ++ [i]) (sc.find (simplex ++ [i])).2 false
           else (false, (sc.find (simplex ++ [i])).2)) = RD
      have hRDeq : add_all_faces_of_dimension (dim - 1) alpha2 nr rest
          (simplex ++ [i]) (sc.find (simplex ++ [i])).2 = RD := by
        rw [← hR1]
        cases rest <;> rfl
      by_cases hq : ((sc.find (simplex ++ [i])).1).isSome
      · rw [if_pos hq]
        obtain ⟨pf1, pi1, hpf1, hpi1, hpf1m, hpi1m⟩ := hadd (dim - 1) nr (simplex ++ [i])
          (sc.find (simplex ++ [i])).2
        rw [hRDeq] at hpf1 hpi1
        generalize hR2 :
          (match rest with
           | [] => (false, RD.2)
           | _ :: _ =>
             if 0 < dim then dimPosLoop alpha2 dim (tightenLe nr d) rest simplex RD.2 false
             else if dim = 0 then
               dimZeroLoop alpha2 (tightenLe nr d) rest simplex RD.2 false
             else (false, RD.2)) = R2
        have hR2eq : add_all_faces_of_dimension dim alpha2 (tightenLe nr d) rest
            simplex RD.2 = R2 := by
          rw [← hR2]
          cases rest <;> rfl
        obtain ⟨pf2, pi2, hpf2, hpi2, hpf2m, hpi2m⟩ := hadd dim (tightenLe nr d) simplex RD.2
        rw [hR2eq] at hpf2 hpi2
        obtain ⟨pf3, pi3, hpf3, hpi3, hpf3m, hpi3m⟩ := ih dim (tightenLe nr d) simplex R2.2
          (R2.1 || (RD.1 || acc))
        refine ⟨pf3 ++ pf2 ++ pf1 ++ [simplex ++ [i]], pi3 ++ pi2 ++ pi1, ?_, ?_, ?_, ?_⟩
        · rw [hpf3, hpf2, hpf1, find_snd_findLog]
          simp [List.append_assoc]
        · rw [hpi3, hpi2, hpi1, find_snd_insLog]
          simp [List.append_assoc]
        · intro l hl
          rcases List.mem_append.mp hl with hl | hl
          · rcases List.mem_append.mp hl with hl | hl
            · rcases List.mem_append.mp hl with hl | hl
              · exact htail l (hpf3m l hl)
              · exact htail l (hpf2m l hl)
            · exact hpushtail l (hpf1m l hl)
          · simp only [List.mem_singleton] at hl
            rw [hl]
            exact hs'
        · intro q hq'
          rcases List.mem_append.mp hq' with hq' | hq'
          · rcases List.mem_append.mp hq' with hq' | hq'
            · exact htail q.1 (hpi3m q hq')
            · exact htail q.1 (hpi2m q hq')
          · exact hpushtail q.1 (hpi1m q hq')
      · rw [if_neg hq]
        generalize hR2 :
          (match rest with
           | [] => (false, (sc.find (simplex ++ [i])).2)
           | _ :: _ =>
             if 0 < dim then
               dimPosLoop alpha2 dim (tightenLe nr d) rest simplex
                 (sc.find (simplex ++ [i])).2 false
             else if dim = 0 then
               dimZeroLoop alpha2 (tightenLe nr d) rest simplex
                 (sc.find (simplex ++ [i])).2 false
             else (false, (sc.find (simplex ++ [i])).2)) = R2
        have hR2eq : add_all_faces_of_dimension dim alpha2 (tightenLe nr d) rest
            simplex (sc.find (simplex ++ [i])).2 = R2 := by
          rw [← hR2]
          cases rest <;> rfl
        obtain ⟨pf2, pi2, hpf2, hpi2, hpf2m, hpi2m⟩ := hadd dim (tightenLe nr d) simplex
          (sc.find (simplex ++ [i])).2
        rw [hR2eq] at hpf2 hpi2
        obtain ⟨pf3, pi3, hpf3, hpi3, hpf3m, hpi3m⟩ := ih dim (tightenLe nr d) simplex R2.2
          (R2.1 || (false || acc))
        refine ⟨pf3 ++ pf2 ++ [simplex ++ [i]], pi3 ++ pi2, ?_, ?_, ?_, ?_⟩
        · rw [hpf3, hpf2, find_snd_findLog]
          simp [List.append_assoc]
        · rw [hpi3, hpi2, find_snd_insLog]
          simp [List.append_assoc]
        · intro l hl
          rcases List.mem_append.mp hl with hl | hl
          · rcases List.mem_append.mp hl with hl | hl
            · exact htail l (hpf3m l hl)
            · exact htail l (hpf2m l hl)
          · simp only [List.mem_singleton] at hl
            rw [hl]
            exact hs'
        · intro q hq'
          rcases List.mem_append.mp hq' with hq' | hq'
          · exact htail q.1 (hpi3m q hq')
          · exact htail q.1 (hpi2m q hq')
    · rw [if_neg hg]
      exact ⟨[], [], rfl, rfl, by simp, by simp⟩

/-- Claim C8, corrected (canonical simplex identity): the builder does
NOT construct vertex lists with strictly increasing landmark ids — it
pushes landmarks in the witness's ranking (ascending squared-distance)
order.  What holds instead: every raw vertex list passed to `find` or
`insert_simplex` during a call of `add_all_faces_of_dimension` is a
subsequence of the already-pushed prefix followed by the landmark ids
of the remaining cursor in ranking order (so at the root of a pass, a
subsequence of the witness's ranking id sequence); set-level identity
is restored by the target complex, which canonicalizes on every `find`
and `insert_simplex`. -/
theorem claim_C8_ranking_order :
    ∀ (dim : Int) (alpha2 : F) (nr : Option F) (rem : List (Nat × F))
      (simplex : List Nat) (sc : SComplex F),
      ∃ pf pi,
        ((add_all_faces_of_dimension dim alpha2 nr rem simplex sc).2).findLog =
          pf ++ sc.findLog ∧
        ((add_all_faces_of_dimension dim alpha2 nr rem simplex sc).2).insLog =
          pi ++ sc.insLog ∧
        (∀ l ∈ pf, l.Sublist (simplex ++ rem.map Prod.fst)) ∧
        (∀ q ∈ pi, (q : List Nat × F).1.Sublist (simplex ++ rem.map Prod.fst)) := by
  intro dim alpha2 nr rem simplex sc
  cases rem with
  | nil => exact ⟨[], [], rfl, rfl, by simp, by simp⟩
  | cons a b =>
    simp only [add_all_faces_of_dimension]
    by_cases h1 : 0 < dim
    · rw [if_pos h1]; exact logs_dimPosLoop _ _ _ _ _ _ _
    · rw [if_neg h1]
      by_cases h2 : dim = 0
      · rw [if_pos h2]; exact logs_dimZeroLoop _ _ _ _ _ _
      · rw [if_neg h2]; exact ⟨[], [], rfl, rfl, by simp, by simp⟩

/-- Claim C8 counterexample: with two landmarks where landmark 1 is
nearer to the witness than landmark 0, the run passes the vertex list
`[1, 0]` — not strictly increasing — to `insert_simplex`. -/
theorem strictlyIncr_iff_chain (l : List Nat) :
    strictlyIncr l = true ↔ List.Chain' (fun a b : Nat => a < b) l := by
  induction l with
  | nil => simp [strictlyIncr]
  | cons a t ih =>
    cases t with
    | nil => simp [strictlyIncr]
    | cons b t' =>
      simp only [strictlyIncr, Bool.and_eq_true, decide_eq_true_eq, List.chain'_cons]
      rw [ih]

theorem claim_C8_ranking_order_counterexample :
    (¬ ∀ p ∈ create_complex 2 [[((1 : Nat), (0 : Int)), (0, 1)]] emptySC 0 1,
        ∀ q ∈ p.2.insLog, strictlyIncr q.1 = true) ∧
    (∀ p ∈ create_complex 2 [[((1 : Nat), (0 : Int)), (0, 1)]] emptySC 0 1,
        [1, 0] ∈ p.2.insLog.map Prod.fst) := by
  constructor
  · decide
  · decide

/-! ## The single-landmark scenario and the declared dimension -/

/-- A dimension-1 pass over a one-entry ranking inserts nothing and
returns `false` (the nested calls all hit the exhausted cursor). -/
theorem add_single_entry (alpha2 : F) (i0 : Nat) (d : F) (sc : SComplex F) :
    (add_all_faces_of_dimension 1 alpha2 none [(i0, d)] [] sc).1 = false ∧
    ((add_all_faces_of_dimension 1 alpha2 none [(i0, d)] [] sc).2).simplices =
      sc.simplices := by
  have he : add_all_faces_of_dimension 1 alpha2 none [(i0, d)] [] sc =
      dimPosLoop alpha2 1 none [(i0, d)] [] sc false := rfl
  rw [he]
  simp only [dimPosLoop]
  rw [if_pos (by rfl)]
  by_cases hq : ((sc.find ([] ++ [i0])).1).isSome
  · rw [if_pos hq]
    exact ⟨rfl, rfl⟩
  · rw [if_neg hq]
    exact ⟨rfl, rfl⟩

theorem onePass_single (alpha2 : F) (ds : List F) (sc : SComplex F) :
    (onePass 1 alpha2 (ds.map (fun d => [(0, d)])) sc).1 = [] ∧
    ((onePass 1 alpha2 (ds.map (fun d => [(0, d)])) sc).2).simplices = sc.simplices := by
  induction ds generalizing sc with
  | nil => exact ⟨rfl, rfl⟩
  | cons d rest ih =>
    simp only [List.map_cons, onePass]
    obtain ⟨hb, hs⟩ := add_single_entry alpha2 0 d sc
    rw [hb]
    obtain ⟨ha, hb'⟩ := ih (add_all_faces_of_dimension 1 alpha2 none [(0, d)] [] sc).2
    simp only [Bool.false_eq_true, if_false]
    exact ⟨ha, hb'.trans hs⟩

theorem seed_one_simplices : (seedVertices 1 (emptySC (F := F))).simplices = [([0], 0)] := rfl

theorem set_dimension_dim (sc : SComplex F) (d : Int) : (sc.set_dimension d).dim = d := rfl

theorem buildLoop_step (alpha2 : F) (limit : Int) (fuel : Nat) (k : Int)
    (aws : List (List (Nat × F))) (sc : SComplex F) (h1 : aws ≠ []) (h2 : k ≤ limit) :
    buildLoop alpha2 limit (fuel + 1) k aws sc =
      buildLoop alpha2 limit fuel (k + 1) (onePass k alpha2 aws sc).1
        (onePass k alpha2 aws sc).2 := by
  simp only [buildLoop]
  rw [if_pos ⟨h1, h2⟩]

theorem buildLoop_stop (alpha2 : F) (limit : Int) (fuel : Nat) (k : Int) (sc : SComplex F) :
    buildLoop alpha2 limit (fuel + 1) k [] sc = (k, sc) := by
  simp only [buildLoop]
  rw [if_neg (by simp)]

/-- Claim C7, corrected: the dimension loop stops when the
active-witness list is empty or `k` passes `limit_dimension`, and
`set_dimension` receives `k - 1` at loop exit — but that value can
exceed the highest dimension actually produced.  In the
single-landmark scenario (one landmark, any nonempty list of
witnesses, any nonnegative relaxation, any dimension limit at least
1), the output contains exactly the one 0-simplex `[0]` with
filtration 0, yet the declared dimension is `1`, one more than the
highest dimension produced. -/
theorem claim_C7_declared_dimension :
    ∀ (ds : List F) (alpha2 : F) (limit : Int),
      ds ≠ [] → 0 ≤ alpha2 → 1 ≤ limit →
      ∃ sc', create_complex 1 (ds.map (fun d => [(0, d)])) emptySC alpha2 limit =
          some (true, sc') ∧
        sc'.simplices = [([0], 0)] ∧ sc'.dim = 1 := by
  intro ds alpha2 limit hds hα hlim
  unfold create_complex
  rw [if_neg (show ¬ 0 < (emptySC (F := F)).numVertices from Nat.lt_irrefl 0),
    if_neg (not_lt.mpr hα), if_neg (by omega : ¬ limit < 0)]
  cases hm : ds.map (fun d => [((0 : Nat), d)]) with
  | nil =>
    exact absurd (List.map_eq_nil_iff.mp hm) hds
  | cons w ws =>
    simp only
    have h1' := onePass_single alpha2 ds (seedVertices 1 emptySC)
    rw [hm] at h1'
    obtain ⟨m, hm'⟩ : ∃ m, limit.toNat = m + 1 := ⟨limit.toNat - 1, by omega⟩
    have hb : buildLoop alpha2 limit (limit.toNat + 1) 1 (w :: ws)
        (seedVertices 1 emptySC) =
        (2, (onePass 1 alpha2 (w :: ws) (seedVertices 1 emptySC)).2) := by
      rw [hm', buildLoop_step _ _ _ _ _ _ (by simp) (by omega), h1'.1, buildLoop_stop]
      norm_num
    refine ⟨_, rfl, ?_, ?_⟩
    · rw [set_dimension_simplices, hb]
      rw [h1'.2, seed_one_simplices]
    · rw [set_dimension_dim, hb]
      norm_num

/-- Claim C7 witness: one landmark, one witness at squared distance 3,
relaxation 0, dimension limit 5. -/
theorem claim_C7_declared_dimension_witness :
    ([(3 : Int)] ≠ [] ∧ (0 : Int) ≤ 0 ∧ (1 : Int) ≤ 5) ∧
    (∃ sc', create_complex 1 ([(3 : Int)].map (fun d => [(0, d)])) emptySC 0 5 =
        some (true, sc') ∧ sc'.simplices = [([0], 0)] ∧ sc'.dim = 1) :=
  ⟨⟨by decide, by decide, by decide⟩,
   claim_C7_declared_dimension [3] 0 5 (by decide) (by decide) (by decide)⟩

/-- Claim C7 counterexample: with one landmark and one witness the
run succeeds, produces only 1-vertex simplices (highest dimension 0),
but declares dimension `1`, refuting that `k - 1` at loop exit equals
the highest dimension produced. -/
theorem claim_C7_declared_dimension_counterexample :
    (create_complex 1 [[((0 : Nat), (0 : Int))]] emptySC 0 5).map
        (fun p => (p.1, p.2.simplices, p.2.dim)) = some (true, [([0], 0)], 1) ∧
    ¬ ((1 : Int) = 0) := by
  refine ⟨by decide, by decide⟩

/-! ## Simulation between runs at two relaxation values -/

theorem lookup_isSome_iff_mem_keys (sc : SComplex F) (K : List Nat) :
    (sc.lookup K).isSome = true ↔ K ∈ sc.keys := by
  constructor
  · intro h
    obtain ⟨v, hv⟩ := Option.isSome_iff_exists.mp h
    exact mem_keys_of_lookup hv
  · exact lookup_isSome_of_mem_keys

theorem keys_congr {sc₁ sc₂ : SComplex F} (h : sc₁.simplices = sc₂.simplices) :
    sc₁.keys = sc₂.keys := by
  unfold SComplex.keys
  rw [h]

theorem distLe_mono {alpha1 alpha2 d : F} (h : alpha1 ≤ alpha2) {nr : Option F}
    (hg : distLe (d - alpha1) nr = true) : distLe (d - alpha2) nr = true := by
  cases nr with
  | none => rfl
  | some r =>
    simp only [distLe, decide_eq_true_eq] at hg ⊢
    exact le_trans (sub_le_sub_left h d) hg

theorem insert_mem_keys (sc : SComplex F) (s : List Nat) (fv : F) :
    canon s ∈ (sc.insert_simplex s fv).keys := by
  rw [← lookup_isSome_iff_mem_keys, insert_lookup]
  cases h : sc.lookup (canon s) with
  | none => rw [if_pos ⟨rfl, rfl⟩]; rfl
  | some v =>
    rw [if_neg (by simp)]
    rfl

theorem insert_keys_super (sc : SComplex F) (s : List Nat) (fv : F) :
    sc.keys ⊆ (sc.insert_simplex s fv).keys :=
  grows_keys (grows_insert sc s fv)

theorem insert_keys_sub_insert {sc₁ sc₂ : SComplex F} (hk : sc₁.keys ⊆ sc₂.keys)
    (s : List Nat) (fv₁ fv₂ : F) :
    (sc₁.insert_simplex s fv₁).keys ⊆ (sc₂.insert_simplex s fv₂).keys := by
  intro K hK
  rw [← lookup_isSome_iff_mem_keys, insert_lookup] at hK
  by_cases hc : sc₁.lookup (canon s) = none ∧ canon s = K
  · rw [← hc.2]
    exact insert_mem_keys sc₂ s fv₂
  · rw [if_neg hc, lookup_isSome_iff_mem_keys] at hK
    exact insert_keys_super sc₂ s fv₂ (hk hK)

theorem afi_keys (fl : List (List Nat)) (fv : F) (sc : SComplex F) :
    (allFacesInAux fl fv sc).2.keys = sc.keys :=
  keys_congr (afi_simplices fl fv sc)

theorem afi_isSome_mono {sc₁ sc₂ : SComplex F} (hk : sc₁.keys ⊆ sc₂.keys)
    (fl : List (List Nat)) (fv₁ fv₂ : F)
    (h : ((allFacesInAux fl fv₁ sc₁).1).isSome = true) :
    ((allFacesInAux fl fv₂ sc₂).1).isSome = true := by
  rw [afi_isSome_iff] at h ⊢
  intro f hf
  rw [lookup_isSome_iff_mem_keys]
  exact hk ((lookup_isSome_iff_mem_keys sc₁ (canon f)).mp (h f hf))

theorem sim_dimZeroLoop (alpha1 alpha2 : F) (hα : alpha1 ≤ alpha2) (nr : Option F)
    (rem : List (Nat × F)) (simplex : List Nat) (sc₁ sc₂ : SComplex F)
    (acc₁ acc₂ : Bool) (hk : sc₁.keys ⊆ sc₂.keys) (hacc : acc₁ = true → acc₂ = true) :
    ((dimZeroLoop alpha1 nr rem simplex sc₁ acc₁).2.keys ⊆
      (dimZeroLoop alpha2 nr rem simplex sc₂ acc₂).2.keys) ∧
    ((dimZeroLoop alpha1 nr rem simplex sc₁ acc₁).1 = true →
      (dimZeroLoop alpha2 nr rem simplex sc₂ acc₂).1 = true) := by
  induction rem generalizing nr sc₁ sc₂ acc₁ acc₂ with
  | nil => exact ⟨hk, hacc⟩
  | cons hd rest ih =>
    obtain ⟨i, d⟩ := hd
    by_cases hg₁ : distLe (d - alpha1) nr
    · have hg₂ : distLe (d - alpha2) nr = true := distLe_mono hα hg₁
      simp only [dimZeroLoop]
      rw [if_pos hg₁, if_pos hg₂]
      cases hq₁ : (all_faces_in (simplex ++ [i]) (excessFv d nr) sc₁).1 with
      | some fv₁ =>
        have hq₂s : ((all_faces_in (simplex ++ [i]) (excessFv d nr) sc₂).1).isSome = true := by
          rw [all_faces_in_eq] at hq₁ ⊢
          exact afi_isSome_mono hk _ _ _ (by rw [hq₁]; rfl)
        obtain ⟨fv₂, hq₂⟩ := Option.isSome_iff_exists.mp hq₂s
        rw [hq₂]
        refine ih _ _ _ _ _ ?_ (fun _ => rfl)
        have hk₁ : ((all_faces_in (simplex ++ [i]) (excessFv d nr) sc₁).2).keys = sc₁.keys := by
          rw [all_faces_in_eq]; exact afi_keys _ _ _
        have hk₂ : ((all_faces_in (simplex ++ [i]) (excessFv d nr) sc₂).2).keys = sc₂.keys := by
          rw [all_faces_in_eq]; exact afi_keys _ _ _
        intro K hK
        rw [← lookup_isSome_iff_mem_keys, insert_lookup] at hK
        by_cases hc : ((all_faces_in (simplex ++ [i]) (excessFv d nr) sc₁).2).lookup
            (canon (simplex ++ [i])) = none ∧ canon (simplex ++ [i]) = K
        · rw [← hc.2]
          exact insert_mem_keys _ _ _
        · rw [if_neg hc, lookup_isSome_iff_mem_keys, hk₁] at hK
          apply insert_keys_super
          rw [hk₂]
          exact hk hK
      | none =>
        have hk₁ : ((all_faces_in (simplex ++ [i]) (excessFv d nr) sc₁).2).keys = sc₁.keys := by
          rw [all_faces_in_eq]; exact afi_keys _ _ _
        have hk₂ : ((all_faces_in (simplex ++ [i]) (excessFv d nr) sc₂).2).keys = sc₂.keys := by
          rw [all_faces_in_eq]; exact afi_keys _ _ _
        cases hq₂ : (all_faces_in (simplex ++ [i]) (excessFv d nr) sc₂).1 with
        | some fv₂ =>
          refine ih _ _ _ _ _ ?_ (fun _ => rfl)
          intro K hK
          rw [hk₁] at hK
          apply insert_keys_super
          rw [hk₂]
          exact hk hK
        | none =>
          refine ih _ _ _ _ _ ?_ hacc
          rw [hk₁, hk₂]
          exact hk
    · simp only [dimZeroLoop]
      rw [if_neg hg₁]
      refine ⟨hk.trans (grows_keys (grows_dimZeroLoop alpha2 nr ((i, d) :: rest)
        simplex sc₂ acc₂)), ?_⟩
      intro h1
      exact (dimZeroLoop_true_iff alpha2 nr ((i, d) :: rest) simplex sc₂ acc₂).mpr
        (Or.inl (hacc h1))

theorem find_snd_keys (sc : SComplex F) (s : List Nat) :
    (sc.find s).2.keys = sc.keys := rfl

theorem or3_mono {a₁ b₁ c₁ a₂ b₂ c₂ : Bool} (ha : a₁ = true → a₂ = true)
    (hb : b₁ = true → b₂ = true) (hc : c₁ = true → c₂ = true) :
    (a₁ || (b₁ || c₁)) = true → (a₂ || (b₂ || c₂)) = true := by
  intro h
  simp only [Bool.or_eq_true] at h ⊢
  rcases h with h | h | h
  · exact Or.inl (ha h)
  · exact Or.inr (Or.inl (hb h))
  · exact Or.inr (Or.inr (hc h))

theorem sim_dimPosLoop (alpha1 alpha2 : F) (hα : alpha1 ≤ alpha2) (dim : Int)
    (nr : Option F) (rem : List (Nat × F)) (simplex : List Nat) (sc₁ sc₂ : SComplex F)
    (acc₁ acc₂ : Bool) (hk : sc₁.keys ⊆ sc₂.keys) (hacc : acc₁ = true → acc₂ = true) :
    ((dimPosLoop alpha1 dim nr rem simplex sc₁ acc₁).2.keys ⊆
      (dimPosLoop alpha2 dim nr rem simplex sc₂ acc₂).2.keys) ∧
    ((dimPosLoop alpha1 dim nr rem simplex sc₁ acc₁).1 = true →
      (dimPosLoop alpha2 dim nr rem simplex sc₂ acc₂).1 = true) := by
  induction rem generalizing dim nr simplex sc₁ sc₂ acc₁ acc₂ with
  | nil => exact ⟨hk, hacc⟩
  | cons hd rest ih =>
    obtain ⟨i, d⟩ := hd
    have hadd : ∀ (dim' : Int) (nr' : Option F) (s'' : List Nat) (sc₁'' sc₂'' : SComplex F),
        sc₁''.keys ⊆ sc₂''.keys →
        ((add_all_faces_of_dimension dim' alpha1 nr' rest s'' sc₁'').2.keys ⊆
          (add_all_faces_of_dimension dim' alpha2 nr' rest s'' sc₂'').2.keys) ∧
        ((add_all_faces_of_dimension dim' alpha1 nr' rest s'' sc₁'').1 = true →
          (add_all_faces_of_dimension dim' alpha2 nr' rest s'' sc₂'').1 = true) := by
      intro dim' nr' s'' sc₁'' sc₂'' hk''
      cases rest with
      | nil => exact ⟨hk'', fun h => absurd h (by simp [add_all_faces_of_dimension])⟩
      | cons a b =>
        simp only [add_all_faces_of_dimension]
        by_cases h1 : 0 < dim'
        · rw [if_pos h1, if_pos h1]
          exact ih _ _ _ _ _ _ _ hk'' (fun h => h)
        · rw [if_neg h1, if_neg h1]
          by_cases h2 : dim' = 0
          · rw [if_pos h2, if_pos h2]
            exact sim_dimZeroLoop alpha1 alpha2 hα _ _ _ _ _ _ _ hk'' (fun h => h)
          · rw [if_neg h2, if_neg h2]
            exact ⟨hk'', fun h => h⟩
    by_cases hg₁ : distLe (d - alpha1) nr
    · have hg₂ : distLe (d - alpha2) nr = true := distLe_mono hα hg₁
      simp only [dimPosLoop]
      rw [if_pos hg₁, if_pos hg₂]
      generalize hR11 :
        (match rest with
         | [] => (false, (sc₁.find (simplex ++ [i])).2)
         | _ :: _ =>
           if 0 < dim - 1 then
             dimPosLoop alpha1 (dim - 1) nr rest (simplex ++ [i])
               (sc₁.find (simplex ++ [i])).2 false
           else if dim - 1 = 0 then
             dimZeroLoop alpha1 nr rest (simplex ++ [i]) (sc₁.find (simplex ++ [i])).2 false
           else (false, (sc₁.find (simplex ++ [i])).2)) = A1
      have hA1eq : add_all_faces_of_dimension (dim - 1) alpha1 nr rest
          (simplex ++ [i]) (sc₁.find (simplex ++ [i])).2 = A1 := by
        rw [← hR11]
        cases rest <;> rfl
      generalize hR12 :
        (match rest with
         | [] => (false, (sc₂.find (simplex ++ [i])).2)
         | _ :: _ =>
           if 0 < dim - 1 then
             dimPosLoop alpha2 (dim - 1) nr rest (simplex ++ [i])
               (sc₂.find (simplex ++ [i])).2 false
           else if dim - 1 = 0 then
             dimZeroLoop alpha2 nr rest (simplex ++ [i]) (sc₂.find (simplex ++ [i])).2 false
           else (false, (sc₂.find (simplex ++ [i])).2)) = A2
      have hA2eq : add_all_faces_of_dimension (dim - 1) alpha2 nr rest
          (simplex ++ [i]) (sc₂.find (simplex ++ [i])).2 = A2 := by
        rw [← hR12]
        cases rest <;> rfl
      have hfk₁ : (sc₁.find (simplex ++ [i])).2.keys = sc₁.keys := find_snd_keys _ _
      have hfk₂ : (sc₂.find (simplex ++ [i])).2.keys = sc₂.keys := find_snd_keys _ _
      have hR1 : (∀ b₁, (if ((sc₁.find (simplex ++ [i])).1).isSome then A1
            else (false, (sc₁.find (simplex ++ [i])).2)) = b₁ →
          ∀ b₂, (if ((sc₂.find (simplex ++ [i])).1).isSome then A2
            else (false, (sc₂.find (simplex ++ [i])).2)) = b₂ →
          (b₁.2.keys ⊆ b₂.2.keys) ∧ (b₁.1 = true → b₂.1 = true)) := by
        intro b₁ hb₁ b₂ hb₂
        by_cases hq₁ : ((sc₁.find (simplex ++ [i])).1).isSome
        · have hq₂ : ((sc₂.find (simplex ++ [i])).1).isSome = true := by
            rw [find_fst, lookup_isSome_iff_mem_keys] at hq₁ ⊢
            exact hk hq₁
          rw [if_pos hq₁] at hb₁
          rw [if_pos hq₂] at hb₂
          subst hb₁ hb₂
          rw [← hA1eq, ← hA2eq] at *
          exact hadd (dim - 1) nr (simplex ++ [i]) _ _ (by rw [hfk₁, hfk₂]; exact hk)
        · rw [if_neg hq₁] at hb₁
          subst hb₁
          constructor
          · by_cases hq₂ : ((sc₂.find (simplex ++ [i])).1).isSome
            · rw [if_pos hq₂] at hb₂
              subst hb₂
              rw [← hA2eq]
              refine fun K hK => grows_keys (grows_add _ _ _ _ _ _) ?_
              rw [hfk₂]
              apply hk
              rw [hfk₁] at hK
              exact hK
            · rw [if_neg hq₂] at hb₂
              subst hb₂
              intro K hK
              rw [hfk₂]
              apply hk
              rw [hfk₁] at hK
              exact hK
          · intro h
            exact absurd h (by simp)
      obtain ⟨hkR1, hbR1⟩ := hR1 _ rfl _ rfl
      generalize hR21 :
        (match rest with
         | [] => (false,
             (if ((sc₁.find (simplex ++ [i])).1).isSome then A1
              else (false, (sc₁.find (simplex ++ [i])).2)).2)
         | _ :: _ =>
           if 0 < dim then
             dimPosLoop alpha1 dim (tightenLe nr d) rest simplex
               (if ((sc₁.find (simplex ++ [i])).1).isSome then A1
                else (false, (sc₁.find (simplex ++ [i])).2)).2 false
           else if dim = 0 then
             dimZeroLoop alpha1 (tightenLe nr d) rest simplex
               (if ((sc₁.find (simplex ++ [i])).1).isSome then A1
                else (false, (sc₁.find (simplex ++ [i])).2)).2 false
           else (false,
             (if ((sc₁.find (simplex ++ [i])).1).isSome then A1
              else (false, (sc₁.find (simplex ++ [i])).2)).2)) = B1
      have hB1eq : add_all_faces_of_dimension dim alpha1 (tightenLe nr d) rest simplex
          (if ((sc₁.find (simplex ++ [i])).1).isSome then A1
           else (false, (sc₁.find (simplex ++ [i])).2)).2 = B1 := by
        rw [← hR21]
        cases rest <;> rfl
      generalize hR22 :
        (match rest with
         | [] => (false,
             (if ((sc₂.find (simplex ++ [i])).1).isSome then A2
              else (false, (sc₂.find (simplex ++ [i])).2)).2)
         | _ :: _ =>
           if 0 < dim then
             dimPosLoop alpha2 dim (tightenLe nr d) rest simplex
               (if ((sc₂.find (simplex ++ [i])).1).isSome then A2
                else (false, (sc₂.find (simplex ++ [i])).2)).2 false
           else if dim = 0 then
             dimZeroLoop alpha2 (tightenLe nr d) rest simplex
               (if ((sc₂.find (simplex ++ [i])).1).isSome then A2
                else (false, (sc₂.find (simplex ++ [i])).2)).2 false
           else (false,
             (if ((sc₂.find (simplex ++ [i])).1).isSome then A2
              else (false, (sc₂.find (simplex ++ [i])).2)).2)) = B2
      have hB2eq : add_all_faces_of_dimension dim alpha2 (tightenLe nr d) rest simplex
          (if ((sc₂.find (simplex ++ [i])).1).isSome then A2
           else (false, (sc₂.find (simplex ++ [i])).2)).2 = B2 := by
        rw [← hR22]
        cases rest <;> rfl
      obtain ⟨hkR2, hbR2⟩ : (B1.2.keys ⊆ B2.2.keys) ∧ (B1.1 = true → B2.1 = true) := by
        rw [← hB1eq, ← hB2eq]
        exact hadd dim (tightenLe nr d) simplex _ _ hkR1
      exact ih dim (tightenLe nr d) simplex B1.2 B2.2 _ _ hkR2
        (or3_mono hbR2 hbR1 hacc)
    · simp only [dimPosLoop]
      rw [if_neg hg₁]
      refine ⟨hk.trans (grows_keys (grows_dimPosLoop alpha2 dim nr ((i, d) :: rest)
        simplex sc₂ acc₂)), ?_⟩
      intro h1
      exact (dimPosLoop_true_iff alpha2 dim nr ((i, d) :: rest) simplex sc₂ acc₂).mpr
        (Or.inl (hacc h1))

theorem sim_add (alpha1 alpha2 : F) (hα : alpha1 ≤ alpha2) (dim : Int) (nr : Option F)
    (rem : List (Nat × F)) (simplex : List Nat) (sc₁ sc₂ : SComplex F)
    (hk : sc₁.keys ⊆ sc₂.keys) :
    ((add_all_faces_of_dimension dim alpha1 nr rem simplex sc₁).2.keys ⊆
      (add_all_faces_of_dimension dim alpha2 nr rem simplex sc₂).2.keys) ∧
    ((add_all_faces_of_dimension dim alpha1 nr rem simplex sc₁).1 = true →
      (add_all_faces_of_dimension dim alpha2 nr rem simplex sc₂).1 = true) := by
  cases rem with
  | nil => exact ⟨hk, fun h => h⟩
  | cons a b =>
    simp only [add_all_faces_of_dimension]
    by_cases h1 : 0 < dim
    · rw [if_pos h1, if_pos h1]
      exact sim_dimPosLoop alpha1 alpha2 hα _ _ _ _ _ _ _ _ hk (fun h => h)
    · rw [if_neg h1, if_neg h1]
      by_cases h2 : dim = 0
      · rw [if_pos h2, if_pos h2]
        exact sim_dimZeroLoop alpha1 alpha2 hα _ _ _ _ _ _ _ hk (fun h => h)
      · rw [if_neg h2, if_neg h2]
        exact ⟨hk, fun h => h⟩

theorem sim_onePass (k : Int) (alpha1 alpha2 : F) (hα : alpha1 ≤ alpha2)
    {aws₁ aws₂ : List (List (Nat × F))} (hsub : aws₁.Sublist aws₂)
    (sc₁ sc₂ : SComplex F) (hk : sc₁.keys ⊆ sc₂.keys) :
    ((onePass k alpha1 aws₁ sc₁).2.keys ⊆ (onePass k alpha2 aws₂ sc₂).2.keys) ∧
    ((onePass k alpha1 aws₁ sc₁).1).Sublist ((onePass k alpha2 aws₂ sc₂).1) := by
  induction hsub generalizing sc₁ sc₂ with
  | slnil => exact ⟨hk, List.Sublist.slnil⟩
  | @cons t₁ t₂ w h ihs =>
    simp only [onePass]
    have hk₂ : sc₂.keys ⊆ (add_all_faces_of_dimension k alpha2 none w [] sc₂).2.keys :=
      grows_keys (grows_add _ _ _ _ _ _)
    obtain ⟨hk', hs'⟩ := ihs sc₁ _ (hk.trans hk₂)
    refine ⟨hk', ?_⟩
    cases hb : (add_all_faces_of_dimension k alpha2 none w [] sc₂).1 with
    | false =>
      simp only [hb, Bool.false_eq_true, if_false]
      exact hs'
    | true =>
      simp only [hb, if_pos rfl]
      exact hs'.cons w
  | @cons₂ t₁ t₂ w h ihs =>
    simp only [onePass]
    obtain ⟨hka, hba⟩ := sim_add alpha1 alpha2 hα k none w [] sc₁ sc₂ hk
    obtain ⟨hk', hs'⟩ := ihs _ _ hka
    refine ⟨hk', ?_⟩
    cases hb₁ : (add_all_faces_of_dimension k alpha1 none w [] sc₁).1 with
    | false =>
      simp only [hb₁, Bool.false_eq_true, if_false]
      cases hb₂ : (add_all_faces_of_dimension k alpha2 none w [] sc₂).1 with
      | false =>
        simp only [hb₂, Bool.false_eq_true, if_false]
        exact hs'
      | true =>
        simp only [hb₂, if_pos rfl]
        exact hs'.cons w
    | true =>
      have hb₂ := hba hb₁
      simp only [hb₁, hb₂, if_pos rfl]
      exact hs'.cons₂ w

theorem sim_buildLoop (alpha1 alpha2 : F) (hα : alpha1 ≤ alpha2) (limit : Int)
    (fuel : Nat) (k : Int) (aws₁ aws₂ : List (List (Nat × F)))
    (hsub : aws₁.Sublist aws₂) (sc₁ sc₂ : SComplex F) (hk : sc₁.keys ⊆ sc₂.keys) :
    (buildLoop alpha1 limit fuel k aws₁ sc₁).2.keys ⊆
      (buildLoop alpha2 limit fuel k aws₂ sc₂).2.keys := by
  induction fuel generalizing k aws₁ aws₂ sc₁ sc₂ with
  | zero => exact hk
  | succ n ihf =>
    by_cases hg : aws₁ ≠ [] ∧ k ≤ limit
    · have hne₂ : aws₂ ≠ [] := by
        intro he
        subst he
        exact hg.1 (List.sublist_nil.mp hsub)
      rw [buildLoop_step _ _ _ _ _ _ hg.1 hg.2, buildLoop_step _ _ _ _ _ _ hne₂ hg.2]
      obtain ⟨hk', hs'⟩ := sim_onePass k alpha1 alpha2 hα hsub sc₁ sc₂ hk
      exact ihf _ _ _ hs' _ _ hk'
    · have h1 : buildLoop alpha1 limit (n + 1) k aws₁ sc₁ = (k, sc₁) := by
        simp only [buildLoop]
        rw [if_neg hg]
      rw [h1]
      exact hk.trans (grows_keys (grows_buildLoop alpha2 limit (n + 1) k aws₂ sc₂))

/-- Claim C9, corrected (monotonic relaxation): for a fixed landmark
and witness configuration and `0 ≤ alpha1 ≤ alpha2`, every simplex
present after the run at `alpha1` is present after the run at `alpha2`
— but the second half of the original claim is false: the filtration
value of a common simplex under `alpha2` is NOT always at most its
value under `alpha1`, because a widened window can let an earlier
witness insert the simplex first with a larger value, and
`insert_simplex` keeps the first value on duplicates. -/
theorem claim_C9_monotonic_relaxation :
    ∀ (nbL : Nat) (rankings : List (List (Nat × F))) (sc : SComplex F)
      (alpha1 alpha2 : F) (limit : Int),
      sc.numVertices = 0 → 0 ≤ alpha1 → alpha1 ≤ alpha2 → 0 ≤ limit →
      ∀ p₁ ∈ create_complex nbL rankings sc alpha1 limit,
      ∀ p₂ ∈ create_complex nbL rankings sc alpha2 limit,
        p₁.2.keys ⊆ p₂.2.keys := by
  intro nbL rankings sc alpha1 alpha2 limit h0 h1 h12 hl p₁ hp₁ p₂ hp₂
  rw [Option.mem_def] at hp₁ hp₂
  unfold create_complex at hp₁ hp₂
  rw [if_neg (by omega), if_neg (not_lt.mpr h1), if_neg (not_lt.mpr hl)] at hp₁
  rw [if_neg (by omega), if_neg (not_lt.mpr (le_trans h1 h12)),
    if_neg (not_lt.mpr hl)] at hp₂
  cases rankings with
  | nil => cases hp₁
  | cons w ws =>
    simp only [Option.some.injEq] at hp₁ hp₂
    rw [← hp₁, ← hp₂]
    exact sim_buildLoop alpha1 alpha2 h12 limit (limit.toNat + 1) 1 (w :: ws) (w :: ws)
      (List.Sublist.refl _) (seedVertices nbL sc) (seedVertices nbL sc)
      (fun K hK => hK)

/-- Claim C9 witness: the presence-monotonicity statement applied to
the three-landmark, two-witness configuration at relaxations 0 and 2. -/
theorem claim_C9_monotonic_relaxation_witness :
    ((emptySC (F := Int)).numVertices = 0 ∧ (0 : Int) ≤ 0 ∧ (0 : Int) ≤ 2 ∧
      (0 : Int) ≤ 3) ∧
    (∀ p₁ ∈ create_complex 3 [[(0, 0), (1, 1), (2, 3)], [(0, 0), (2, 1), (1, 3)]]
        (emptySC (F := Int)) 0 3,
     ∀ p₂ ∈ create_complex 3 [[(0, 0), (1, 1), (2, 3)], [(0, 0), (2, 1), (1, 3)]]
        (emptySC (F := Int)) 2 3,
       p₁.2.keys ⊆ p₂.2.keys) :=
  ⟨⟨by decide, by decide, by decide, by decide⟩,
   claim_C9_monotonic_relaxation 3 [[(0, 0), (1, 1), (2, 3)], [(0, 0), (2, 1), (1, 3)]]
     emptySC 0 2 3 (by decide) (by decide) (by decide) (by decide)⟩

/-- Claim C9 counterexample: with landmarks `0, 1, 2` and the two
witnesses ranked `[(0,0),(1,1),(2,3)]` and `[(0,0),(2,1),(1,3)]`, the
edge `{0,2}` gets filtration value 0 at relaxation 0 (inserted by the
second witness) but filtration value 2 at relaxation 2 (inserted first
by the first witness, whose value survives the duplicate insert), so
increasing the relaxation raised a filtration value. -/
theorem claim_C9_monotonic_relaxation_counterexample :
    (create_complex 3 [[(0, 0), (1, 1), (2, 3)], [(0, 0), (2, 1), (1, 3)]]
      (emptySC (F := Int)) 0 3).isSome = true ∧
    (create_complex 3 [[(0, 0), (1, 1), (2, 3)], [(0, 0), (2, 1), (1, 3)]]
      (emptySC (F := Int)) 2 3).isSome = true ∧
    (∀ p ∈ create_complex 3 [[(0, 0), (1, 1), (2, 3)], [(0, 0), (2, 1), (1, 3)]]
        (emptySC (F := Int)) 0 3, p.2.lookup [0, 2] = some 0) ∧
    (∀ p ∈ create_complex 3 [[(0, 0), (1, 1), (2, 3)], [(0, 0), (2, 1), (1, 3)]]
        (emptySC (F := Int)) 2 3, p.2.lookup [0, 2] = some 2) ∧
    ¬ ((2 : Int) ≤ 0) := by
  refine ⟨by decide, by decide, by decide, by decide, by decide⟩

end WitnessComplex
